import Mathlib

/-!
Shallow embedding of the `pneumaticdeath/markov` repository.

The repository implements a Markov-chain statistics engine with three
interchangeable backends:
  * `src/tuple_map.py` — a flat hash map from fixed-length context tuples
    to leaf counters (`_MCLeaf`, `MarkovChain`);
  * `src/tree.py`      — a recursive trie of counter nodes
    (`MarkovChain`, `_MCLeaf`);
  * `src/prefix_sql.py`— a persisted relational store (`MarkovPrefixSql`).

Modelling conventions used throughout this file:
  * Python integers are `Nat` (all counts in the source are non-negative and
    only ever incremented).
  * Python strings are `PyStr := List Char`; `str.join`/`str.split` are
    modelled by explicit recursion on the character list.
  * Python dicts (insertion ordered) are association lists `List (κ × ν)`;
    insertion appends at the end, update keeps the position, exactly as
    CPython dicts do.
  * `random.uniform(0, total)` / `random.randint(0, total-1)` draws are
    supplied externally as a stream `ds : Nat → Nat` of drawn values with an
    index threaded through the computation; because all weights are integers,
    the candidate selected by a real draw `v ∈ [0, total)` depends only on
    `⌊v⌋`, so `Nat`-valued draws model the scans exactly.  The validity bound
    `ds i < total` appears as a hypothesis of the theorems that need it.
  * Python exceptions are an explicit error type `PyErr`; functions that can
    raise return `Except PyErr _`; generators return `Option` with `none`
    standing for a raised exception (or exhausted modelling fuel).
  * Python truthiness of opaque tokens is a parameter `tr : α → Bool`
    (`tr x = false` models a falsy token such as `0` or `""`); truthiness of
    an optional value is `false` for `none` and `tr x` for `some x`.
-/

/-- Python exception kinds raised by the modelled code. -/
inductive PyErr where
  | keyError
  | runtimeError
  | valueError
  | notImplemented
  | attributeError
  | assertError
  | indexError
  deriving DecidableEq, Repr

/-- Python `str` modelled as its character list. -/
abbrev PyStr := List Char

section AssocHelpers

variable {κ ν : Type} [DecidableEq κ]

/-- Lookup in an insertion-ordered association list (Python `dict.__getitem__`,
first match wins). -/
def lookupA (k : κ) : List (κ × ν) → Option ν
  | [] => none
  | p :: r => if p.1 = k then some p.2 else lookupA k r

/-- In-place value replacement keeping dict order; appends when the key is
absent (Python `dict.__setitem__`). -/
def setA (k : κ) (v : ν) : List (κ × ν) → List (κ × ν)
  | [] => [(k, v)]
  | p :: r => if p.1 = k then (k, v) :: r else p :: setA k v r

/-- `m[k] += c` on a counter dict, inserting `c` when the key is absent. -/
def addWeight (k : κ) (c : Nat) : List (κ × Nat) → List (κ × Nat)
  | [] => [(k, c)]
  | p :: r => if p.1 = k then (p.1, p.2 + c) :: r else p :: addWeight k c r

/-- Python `set.add`: insert unless already present. -/
def addSet (x : κ) (l : List κ) : List κ :=
  if x ∈ l then l else l ++ [x]

/-- Total weight of a weighted candidate list. -/
def totalW (l : List ν) (w : ν → Nat) : Nat :=
  (l.map w).sum

/-- The weighted random selection scan shared by all three backends
(`_MCLeaf.GetRandomElement`, `MarkovChain._GetRandomKey`,
`MarkovChain._GetRandomElement`, `MarkovPrefixSql._getPrefixIdLike`,
`MarkovPrefixSql._getRandomLeaf`): subtract each candidate's weight from the
drawn value until the value is below the current weight; `none` models the
fall-through past the loop. -/
def weightedScan (v : Nat) : List ν → (ν → Nat) → Option ν
  | [], _ => none
  | b :: r, w => if v < w b then some b else weightedScan (v - w b) r w

end AssocHelpers

/-! ## Flat-map backend: `src/tuple_map.py` -/

namespace TupleMap

variable {α : Type} [DecidableEq α]

/-- `_MCLeaf` from `src/tuple_map.py`: per-context counter.

The field `term` is a specification-only ghost counter: it counts the updates
that took the terminating branch (`element is None`) at this leaf.  The
Python object does not store it — the terminator count is implicit there as
`count - sum(elem.values())` — and no modelled operation reads it. -/
structure MCLeaf (α : Type) where
  count : Nat
  labels : List String
  elemLabels : List (α × List String)
  elem : List (α × Nat)
  term : Nat
  deriving DecidableEq, Repr

/-- `_MCLeaf.__init__(element, label)`. -/
def mkMCLeaf (element : Option α) (label : Option String) : MCLeaf α :=
  match element with
  | some e =>
    { count := 1
      labels := []
      elemLabels := [(e, label.toList)]
      elem := [(e, 1)]
      term := 0 }
  | none =>
    { count := 1
      labels := label.toList
      elemLabels := []
      elem := []
      term := 1 }

/-- `_MCLeaf.Update(element, label)`. -/
def MCLeaf.Update (l : MCLeaf α) (element : Option α) (label : Option String) :
    MCLeaf α :=
  match element with
  | none =>
    { l with
      count := l.count + 1
      labels := match label with
        | some lb => addSet lb l.labels
        | none => l.labels
      term := l.term + 1 }
  | some e =>
    let elemLabels :=
      if (lookupA e l.elem).isSome then l.elemLabels
      else l.elemLabels ++ [(e, [])]
    let elemLabels := match label with
      | some lb => setA e (addSet lb ((lookupA e elemLabels).getD [])) elemLabels
      | none => elemLabels
    { l with
      count := l.count + 1
      elem := addWeight e 1 l.elem
      elemLabels := elemLabels }

/-- `_MCLeaf.GetRandomElement`: weighted scan over `elem`; `none` is the
terminator outcome (the fall-through `return None`).  The `labelset`
out-parameter of the source only accumulates labels and never influences the
selection; it is omitted. -/
def MCLeaf.GetRandomElement (l : MCLeaf α) (v : Nat) : Option α :=
  (weightedScan v l.elem Prod.snd).map Prod.fst

/-- `MarkovChain` from `src/tuple_map.py` (`_max_key = max - 1`). -/
structure MarkovChain (α : Type) where
  max : Nat
  count : Nat
  tupleMap : List (List α × MCLeaf α)
  deriving DecidableEq, Repr

/-- `MarkovChain.__init__(max)`. -/
def mkChain (max : Nat) : MarkovChain α :=
  { max := max, count := 0, tupleMap := [] }

/-- `MarkovChain._UpdateTuple(t, label)`. -/
def MarkovChain.UpdateTuple (mc : MarkovChain α) (t : List α)
    (label : Option String) : MarkovChain α :=
  if t.isEmpty then mc
  else
    let key := t.take (mc.max - 1)
    let element := t[mc.max - 1]?
    { mc with
      count := mc.count + 1
      tupleMap := match lookupA key mc.tupleMap with
        | some leaf => setA key (leaf.Update element label) mc.tupleMap
        | none => mc.tupleMap ++ [(key, mkMCLeaf element label)] }

/-- Python `seq[-k:]` (note `seq[-0:]` is the whole sequence). -/
def lastSlice (seq : List α) (k : Nat) : List α :=
  if k = 0 then seq else seq.drop (seq.length - k)

/-- `MarkovChain.Update(seq, label)`: every full-length window, then the
trailing `seq[-(max-1):]` terminator tuple. -/
def MarkovChain.Update (mc : MarkovChain α) (seq : List α)
    (label : Option String) : MarkovChain α :=
  let mc1 := (List.range (seq.length + 1 - mc.max)).foldl
    (fun m i => m.UpdateTuple ((seq.drop i).take mc.max) label) mc
  mc1.UpdateTuple (lastSlice seq (mc1.max - 1)) label

/-- The candidate tuples of `MarkovChain._GetRandomKey` in the branch that
scans; for `seed = none` all keys, otherwise the keys whose leading tokens
equal the seed. -/
def MarkovChain.cands (mc : MarkovChain α) (seed : Option (List α)) :
    List (List α) :=
  match seed with
  | none => mc.tupleMap.map Prod.fst
  | some s => (mc.tupleMap.map Prod.fst).filter (fun tup => tup.take s.length = s)

/-- The weight the scan of `_GetRandomKey` reads for a candidate tuple:
`self._tuple_map[tup].count`. -/
def MarkovChain.keyWeight (mc : MarkovChain α) (tup : List α) : Nat :=
  ((lookupA tup mc.tupleMap).map MCLeaf.count).getD 0

/-- `MarkovChain._GetRandomKey(seed)`.  Returns the chosen key together with
the next unused index into the draw stream.  `KeyError` models the raise at
"No candidate tuples match seed", `RuntimeError` the fall-through past the
scan. -/
def MarkovChain.GetRandomKey (mc : MarkovChain α) (seed : Option (List α))
    (ds : Nat → Nat) (i : Nat) : Except PyErr (List α) × Nat :=
  match seed with
  | some s =>
    if s ≠ [] ∧ mc.max - 1 ≤ s.length then (.ok s, i)
    else
      step (mc.cands (some s))
  | none => step (mc.cands none)
where
  step (cands : List (List α)) : Except PyErr (List α) × Nat :=
    if cands.isEmpty then (.error .keyError, i)
    else
      match weightedScan (ds i) cands mc.keyWeight with
      | some k => (.ok k, i + 1)
      | none => (.error .runtimeError, i + 1)

/-- `MarkovChain.GetRandomTuple(seed, depth)` (`labelset` omitted, see
`MCLeaf.GetRandomElement`).  Note the source performs no validation of
`depth`; it only truncates the result. -/
def MarkovChain.GetRandomTuple (tr : α → Bool) (mc : MarkovChain α)
    (seed : Option (List α)) (depth : Option Nat) (ds : Nat → Nat) :
    Except PyErr (List α) :=
  match mc.GetRandomKey seed ds 0 with
  | (.error e, _) => .error e
  | (.ok key, i) =>
    if key.isEmpty then .ok []
    else
      match lookupA key mc.tupleMap with
      | none => .error .keyError
      | some leaf =>
        let element := leaf.GetRandomElement (ds i)
        let key := match element with
          | some e => if tr e then key ++ [e] else key
          | none => key
        match depth with
        | some d => if d < key.length then .ok (key.take d) else .ok key
        | none => .ok key

/-- The generator loop of `MarkovChain.GetRandomSequence`: while the current
window is full-length, yield its head, draw the next element from the leaf at
the window, slide.  `none` models a raised exception (`KeyError` from
`_GetNext`, `IndexError` from `seq[0]`) or exhausted modelling fuel. -/
def genLoop (tr : α → Bool) (mc : MarkovChain α) :
    Nat → List α → (Nat → Nat) → Nat → Option (List α)
  | 0, _, _, _ => none
  | fuel + 1, seq, ds, i =>
    if mc.max - 1 ≤ seq.length then
      match seq with
      | [] => none
      | x :: rest =>
        match lookupA seq mc.tupleMap with
        | none => none
        | some leaf =>
          let nxt := leaf.GetRandomElement (ds i)
          let seq1 := match nxt with
            | some e => if tr e then rest ++ [e] else rest
            | none => rest
          (genLoop tr mc fuel seq1 ds (i + 1)).map (x :: ·)
    else some seq

/-- `MarkovChain.GetRandomSequence(seed)` collected into a list (the Python
generator is finite whenever it is consumed to its natural stop; `fuel`
bounds the modelled iteration count). -/
def MarkovChain.GetRandomSequence (tr : α → Bool) (mc : MarkovChain α)
    (seed : Option (List α)) (ds : Nat → Nat) (fuel : Nat) :
    Option (List α) :=
  match mc.GetRandomKey seed ds 0 with
  | (.error _, _) => none
  | (.ok seq, i) => genLoop tr mc fuel seq ds i

end TupleMap

/-! ## Trie backend: `src/tree.py` -/

namespace Tree

variable {α : Type} [DecidableEq α]

/-- A node of the trie backend: `MarkovChain` (a `dict` subclass carrying
`count` and `labels`) or `_MCLeaf` (count and labels only, no children).

As in the flat backend, `term` is a specification-only ghost counter of the
updates that took the terminating branch at this node (`len(t) == 0 or
self._max == 0` in `MarkovChain._UpdateTuple`; every `_MCLeaf._UpdateTuple`
call); the Python objects do not store it and no modelled operation reads it.

The `_max` attribute of a subtree at depth `d` of a chain built with maximum
`m` is always `m - d` (children are created as `MarkovChain(self._max-1)`),
so it is threaded through the operations as an explicit `Nat` parameter
rather than stored in every node. -/
inductive MTree (α : Type) where
  | leaf (count : Nat) (labels : List String) (term : Nat)
  | node (count : Nat) (labels : List String) (term : Nat)
      (children : List (α × MTree α))

/-- The `count` attribute of either node kind. -/
def MTree.cnt : MTree α → Nat
  | .leaf c _ _ => c
  | .node c _ _ _ => c

/-- `MarkovChain.__init__`: a fresh node with no statistics. -/
def emptyNode : MTree α := .node 0 [] 0 []

/-- Label insertion guarded by an optional label. -/
def addLabelOpt (label : Option String) (ls : List String) : List String :=
  match label with
  | some lb => addSet lb ls
  | none => ls

/-- `MarkovChain._UpdateTuple(t, label, _labelExclDepth)` /
`_MCLeaf._UpdateTuple` (dispatch by node kind).  `m` is the node's `_max`;
`excl` is `_labelExclDepth`, an `Int` because the source decrements it below
zero. -/
def updateTupleT (label : Option String) :
    List α → Nat → Int → MTree α → MTree α
  | _, _, excl, .leaf c ls tm =>
    .leaf (c + 1) (if excl ≤ 0 then addLabelOpt label ls else ls) (tm + 1)
  | [], _, _, .node c ls tm ch =>
    .node (c + 1) (addLabelOpt label ls) (tm + 1) ch
  | t :: ts, m, excl, .node c ls tm ch =>
    if m = 0 then .node (c + 1) (addLabelOpt label ls) (tm + 1) ch
    else
      let ls1 := if excl ≤ 0 then addLabelOpt label ls else ls
      let child := (lookupA t ch).getD (if m = 1 then .leaf 0 [] 0 else .node 0 [] 0 [])
      .node (c + 1) ls1 tm (setA t (updateTupleT label ts (m - 1) (excl - 1) child) ch)

/-- `MarkovChain.Update(seq, label)`: one `_UpdateTuple` per window
`seq[ind:ind+max]` for `ind in range(len(seq)-min+1)`, with
`_labelExclDepth` starting at `self._min`. -/
def UpdateT (m minv : Nat) (t : MTree α) (seq : List α)
    (label : Option String) : MTree α :=
  (List.range (seq.length + 1 - minv)).foldl
    (fun tree i => updateTupleT label ((seq.drop i).take m) m (minv : Int) tree)
    t

/-- `MarkovChain.GetRandomTuple(seed, depth)` with `depth` an explicit `Nat`
(the wrapper below handles the `None` default and the `depth > max` check of
the top-level call; recursive calls always pass an explicit depth).  The tree
model uses a plain `List α` seed: `tree.py` only ever tests the seed's
truthiness (`if seed:`), for which `None` and the empty tuple coincide.
`ds`/`i` are the draw stream and its next unused index; a draw is consumed
only when the seed is exhausted and `_GetRandomElement` runs.  The
`labelset` out-parameter only accumulates labels and is omitted. -/
def getRTaux (tr : α → Bool) (ds : Nat → Nat) :
    Nat → Nat → MTree α → List α → Nat → Except PyErr (List α)
  | _, _, .leaf _ _ _, _, _ => .error .notImplemented
  | 0, m, .node _ _ _ _, _, _ =>
    -- `depth == 0` returns the empty tuple (the `m < 0` raise is impossible)
    if m < 0 then .error .valueError else .ok []
  | d + 1, m, .node _ _ _ ch, seed, i =>
    if m < d + 1 then .error .valueError
    else if ch.isEmpty then .ok []
    else
      match seed with
      | x :: rest =>
        if tr x then
          match lookupA x ch with
          | none => .ok []
          | some child =>
            if d = 0 then .ok [x]
            else (getRTaux tr ds d (m - 1) child rest i).map (x :: ·)
        else .ok []
      | [] =>
        match weightedScan (ds i) ch (fun p => p.2.cnt) with
        | none => .ok []
        | some (x, child) =>
          if tr x then
            if d = 0 then .ok [x]
            else (getRTaux tr ds d (m - 1) child [] (i + 1)).map (x :: ·)
          else .ok []

/-- `MarkovChain.GetRandomTuple(seed, depth)`: top-level entry applying the
`depth is None` default and the `depth > self._max` `ValueError`. -/
def GetRandomTupleT (tr : α → Bool) (m : Nat) (t : MTree α) (seed : List α)
    (depth : Option Nat) (ds : Nat → Nat) : Except PyErr (List α) :=
  match depth with
  | none => getRTaux tr ds m m t seed 0
  | some d => if m < d then .error .valueError else getRTaux tr ds d m t seed 0

/-- Whether a seed follows an existing path of children in the trie. -/
def isPathT : MTree α → List α → Bool
  | _, [] => true
  | .leaf _ _ _, _ :: _ => false
  | .node _ _ _ ch, x :: rest =>
    match lookupA x ch with
    | some child => isPathT child rest
    | none => false

/-- Shape invariant of trees reachable from `MarkovChain(max)`: `_MCLeaf`
appears exactly where `_max` has reached 0, and a `_max = 0` node never gains
children. -/
def ShapedT : Nat → MTree α → Bool
  | 0, .leaf _ _ _ => true
  | 0, .node _ _ _ ch => ch.isEmpty
  | _ + 1, .leaf _ _ _ => false
  | m + 1, .node _ _ _ ch => ch.all (fun p => ShapedT m p.2)

/-- Whether the value is a `MarkovChain` node (rather than an `_MCLeaf`);
the chain object handed to callers always is. -/
def isNode : MTree α → Bool
  | .leaf _ _ _ => false
  | .node _ _ _ _ => true

/-- Subtree of the trie at the end of a path of children (`none` when the
path leaves the tree or crosses an `_MCLeaf`). -/
def subtreeAt : MTree α → List α → Option (MTree α)
  | t, [] => some t
  | .leaf _ _ _, _ :: _ => none
  | .node _ _ _ ch, x :: p =>
    match lookupA x ch with
    | some c => subtreeAt c p
    | none => none

/-- Whether a seed is fully matched in the sense of `GetRandomTuple`'s walk:
every token truthy and a stored child at every level (the walk of `tree.py`
stops on `if not retVal or retVal not in self`). -/
def truthyPathT (tr : α → Bool) : MTree α → List α → Bool
  | _, [] => true
  | .leaf _ _ _, _ :: _ => false
  | .node _ _ _ ch, x :: rest =>
    tr x && match lookupA x ch with
      | some child => truthyPathT tr child rest
      | none => false

/-- The maximal leading run of seed tokens that are truthy and follow stored
children — what `GetRandomTuple`'s walk accumulates before it stops. -/
def seedMatchPrefix (tr : α → Bool) : MTree α → List α → List α
  | _, [] => []
  | .leaf _ _ _, _ :: _ => []
  | .node _ _ _ ch, x :: rest =>
    if tr x then
      match lookupA x ch with
      | some child => x :: seedMatchPrefix tr child rest
      | none => []
    else []

/-- A fresh subtree as `_UpdateTuple` creates it at remaining depth `k`
(`_MCLeaf()` when the parent's `_max` is 1, `MarkovChain(_max-1)`
otherwise). -/
def blankT (k : Nat) : MTree α :=
  if k = 0 then .leaf 0 [] 0 else .node 0 [] 0 []

/-- The generator loop of `tree.py`'s `GetRandomSequence`: while the current
window has full length, yield its head and re-query `GetRandomTuple` on the
tail, keeping the tail when the new tuple is falsy (empty).  `none` models a
raised exception or exhausted modelling fuel.  Each `GetRandomTuple` call
receives the draw stream `ds` afresh; the source consumes one global
`random` stream, which this coincides with for the constant streams the
round-trip theorem draws from. -/
def genLoopT (tr : α → Bool) (m : Nat) (t : MTree α) (depth : Option Nat)
    (full : Nat) (ds : Nat → Nat) : Nat → List α → Option (List α)
  | 0, _ => none
  | fuel + 1, seq =>
    if full ≤ seq.length then
      match seq with
      | [] => none
      | x :: rest =>
        match GetRandomTupleT tr m t rest depth ds with
        | .error _ => none
        | .ok newSeq =>
          let seq1 := if newSeq.isEmpty then rest else newSeq
          (genLoopT tr m t depth full ds fuel seq1).map (x :: ·)
    else some seq

/-- `tree.py`'s `GetRandomSequence(seed, depth)` collected into a list:
`full_seq_len` is `depth` when given, else `self._max`; a truthy seed of at
least full length is replayed up to its last window first; otherwise the
initial window comes from `GetRandomTuple(seed)`. -/
def GetRandomSequenceT (tr : α → Bool) (m : Nat) (t : MTree α)
    (seed : List α) (depth : Option Nat) (ds : Nat → Nat) (fuel : Nat) :
    Option (List α) :=
  let full := depth.getD m
  if seed ≠ [] ∧ full ≤ seed.length then
    (genLoopT tr m t depth full ds fuel (seed.drop (seed.length - full))).map
      (fun r => seed.take (seed.length - full) ++ r)
  else
    match GetRandomTupleT tr m t seed depth ds with
    | .error _ => none
    | .ok seq => genLoopT tr m t depth full ds fuel seq

/-- Counting invariant (claim C1) plus shape: at every node the aggregate
count equals the sum of the children's counts plus the number of terminating
updates recorded at that node. -/
def InvT : Nat → MTree α → Prop
  | 0, .leaf c _ tm => c = tm
  | 0, .node c _ tm ch => ch = [] ∧ c = tm
  | _ + 1, .leaf _ _ _ => False
  | m + 1, .node c _ tm ch =>
    c = tm + (ch.map (fun p => p.2.cnt)).sum ∧ ∀ p ∈ ch, InvT m p.2

end Tree

/-! ## Persisted backend: `src/prefix_sql.py` -/

namespace PrefixSql

/-- Python `'sep'.join(tokens)`. -/
def joinSep (sep : PyStr) (toks : List PyStr) : PyStr :=
  List.intercalate sep toks

/-- ASCII whitespace recognised by Python `str.split()` with no argument. -/
def isWS (c : Char) : Bool :=
  c = ' ' ∨ c = '\t' ∨ c = '\n' ∨ c = '\r' ∨ c = '\x0b' ∨ c = '\x0c'

/-- Python `str.split()` (split on whitespace runs, dropping empty pieces):
accumulator-based character scan. -/
def splitWSAux : PyStr → PyStr → List PyStr
  | [], cur => if cur.isEmpty then [] else [cur.reverse]
  | c :: r, cur =>
    if isWS c then
      if cur.isEmpty then splitWSAux r [] else cur.reverse :: splitWSAux r []
    else splitWSAux r (c :: cur)

def splitWS (s : PyStr) : List PyStr := splitWSAux s []

/-- Decimal digits of a `Nat`, little-endian, with explicit fuel so the
definition reduces in the kernel (`fuel ≥ n` suffices). -/
def natDigitsRev : Nat → Nat → List Nat
  | 0, _ => []
  | fuel + 1, n => if n = 0 then [] else n % 10 :: natDigitsRev fuel (n / 10)

/-- Python `str(n)` for a non-negative int. -/
def natToPyStr (n : Nat) : PyStr :=
  if n = 0 then ['0'] else ((natDigitsRev n n).map Nat.digitChar).reverse

/-- Python `int(s)` for a decimal digit string. -/
def pyStrToNat (s : PyStr) : Nat :=
  s.foldl (fun a c => 10 * a + (c.toNat - 48)) 0

/-- The `metadata` table: key/value rows of text, `PRIMARY KEY (key) ON
CONFLICT REPLACE`. -/
abbrev Metadata := List (PyStr × PyStr)

/-- `MarkovPrefixSql._getMeta(key)`. -/
def getMeta (m : Metadata) (k : PyStr) : Option PyStr :=
  (m.find? (fun p => p.1 = k)).map Prod.snd

/-- `MarkovPrefixSql._setMeta(key, value)` (replace on conflict, insert
otherwise). -/
def setMeta (m : Metadata) (k v : PyStr) : Metadata :=
  if (m.find? (fun p => p.1 = k)).isSome then
    m.map (fun p => if p.1 = k then (k, v) else p)
  else m ++ [(k, v)]

/-- `MarkovPrefixSql._delMeta(key)`. -/
def delMeta (m : Metadata) (k : PyStr) : Metadata :=
  m.filter (fun p => p.1 ≠ k)

def SCHEMA_VER : PyStr := "0.0.4".toList
def kSchemaVersion : PyStr := "schema_version".toList
def kMaxChainLength : PyStr := "max_chain_length".toList
def kSeparator : PyStr := "separator".toList
/-- The misspelled key used before schema 0.0.3. -/
def kSeperatorOld : PyStr := "seperator".toList

/-- `MarkovPrefixSql.convert_schema(version)`: apply the single migration
step (0.0.2 → 0.0.3, renaming the misspelled `seperator` key), then fail
unless the reached version is the code's `SCHEMA_VER` (`str(None)` is the
literal text `None` when the old key is absent, as `_setMeta` stringifies its
value). -/
def convert_schema (meta : Metadata) (version : PyStr) :
    Except PyErr Metadata :=
  let step :=
    if version = "0.0.2".toList then
      let sep := getMeta meta kSeperatorOld
      let meta := setMeta meta kSeparator (sep.getD "None".toList)
      let meta := delMeta meta kSeperatorOld
      let meta := setMeta meta kSchemaVersion "0.0.3".toList
      (meta, ("0.0.3".toList : PyStr))
    else (meta, version)
  if step.2 ≠ SCHEMA_VER then .error .valueError else .ok step.1

/-- `MarkovPrefixSql.initMeta()`: validate/initialise `schema_version`,
`max_chain_length` and `separator` on open.  Arguments are the stored
metadata and the constructor parameters `max` and `separator`; the result is
the updated metadata together with the instance's final `_separator`. -/
def initMeta (meta : Metadata) (maxP : Nat) (sepP : Option PyStr) :
    Except PyErr (Metadata × PyStr) := do
  let meta ←
    match getMeta meta kSchemaVersion with
    | none => pure (setMeta meta kSchemaVersion SCHEMA_VER)
    | some v =>
      if v = SCHEMA_VER then pure meta
      else convert_schema meta v
  let meta ←
    match getMeta meta kMaxChainLength with
    | none => pure (setMeta meta kMaxChainLength (natToPyStr maxP))
    | some s =>
      if pyStrToNat s ≠ maxP then .error .valueError else pure meta
  match getMeta meta kSeparator with
  | none =>
    let sep := sepP.getD " ".toList
    pure (setMeta meta kSeparator sep, sep)
  | some s =>
    match sepP with
    | none => pure (meta, s)
    | some p => if s ≠ p then .error .valueError else pure (meta, p)

/-- The persisted store.  `prefixes` maps the separator-joined prefix text to
`num_seen` (`prefix_id` is omitted: `UNIQUE (prefix)` makes it a bijective
surrogate of the text, and every modelled query keys on the text).  `leaves`
maps `(prefix text, suffix)` to `(num_seen, initial)`; `leafLabels` maps the
same key to the label set; `seenLabels` is the `seen_labels` table.  Row
order models `rowid` order, i.e. insertion order, which is the order the
unindexed scans of the source traverse. -/
structure PrefixDB where
  max : Nat
  sep : PyStr
  ignoreDupes : Bool
  prefixes : List (PyStr × Nat)
  leaves : List ((PyStr × PyStr) × Nat × Nat)
  leafLabels : List ((PyStr × PyStr) × List PyStr)
  seenLabels : List PyStr
  deriving DecidableEq, Repr

/-- A fresh store (`initDB` with empty tables). -/
def mkDB (max : Nat) (sep : PyStr) (ignoreDupes : Bool) : PrefixDB :=
  { max := max, sep := sep, ignoreDupes := ignoreDupes
    prefixes := [], leaves := [], leafLabels := [], seenLabels := [] }

/-- `MarkovPrefixSql._isLabelSeen(label)`. -/
def isLabelSeen (db : PrefixDB) (label : PyStr) : Bool :=
  label ∈ db.seenLabels

/-- `MarkovPrefixSql._markLabelSeen(label)`.  (Inserting a duplicate would
raise `sqlite3.IntegrityError` in the source, which is unreachable in the
flows modelled here: with the dedup gate enabled `Update` returns before
reaching it for a seen label.) -/
def markLabelSeen (db : PrefixDB) (label : PyStr) : PrefixDB :=
  if label ∈ db.seenLabels then db
  else { db with seenLabels := db.seenLabels ++ [label] }

/-- `MarkovPrefixSql._getAndIncPrefixId(prefix)` restricted to its effect on
the table (the returned id is the prefix text here). -/
def getAndIncPrefix (db : PrefixDB) (pfx : List PyStr) : PrefixDB :=
  let pstr := joinSep db.sep pfx
  if (lookupA pstr db.prefixes).isSome then
    { db with prefixes := addWeight pstr 1 db.prefixes }
  else
    { db with prefixes := db.prefixes ++ [(pstr, 1)] }

/-- `MarkovPrefixSql._getAndIncLeafId(prefix_id, suffix, label, initial)`. -/
def getAndIncLeaf (db : PrefixDB) (pstr suffix : PyStr)
    (label : Option PyStr) (initial : Bool) : PrefixDB :=
  let key := (pstr, suffix)
  let db :=
    match lookupA key db.leaves with
    | some (n, ini) => { db with leaves := setA key (n + 1, ini) db.leaves }
    | none => { db with leaves := db.leaves ++ [(key, 1, 0)] }
  let db :=
    if initial then
      match lookupA key db.leaves with
      | some (n, ini) => { db with leaves := setA key (n, ini + 1) db.leaves }
      | none => db
    else db
  match label with
  | some l =>
    -- `if label:` — an empty-string label is falsy and is not attached
    if l.isEmpty then db
    else
      { db with
        leafLabels :=
          setA key (addSet l ((lookupA key db.leafLabels).getD []))
            db.leafLabels }
  | none => db

/-- `MarkovPrefixSql._updateTuple(t, l, initial)`: increment the prefix row
for `t[0:max-1]` and the leaf row for its continuation (`t[max-1]` when the
tuple is full-length, otherwise the separator marks the terminator). -/
def updateTupleSql (db : PrefixDB) (t : List PyStr) (label : Option PyStr)
    (initial : Bool) : PrefixDB :=
  let pfx := t.take (db.max - 1)
  let leaf := if db.max ≤ t.length then t.getD (db.max - 1) [] else db.sep
  let db := getAndIncPrefix db pfx
  getAndIncLeaf db (joinSep db.sep pfx) leaf label initial

/-- `MarkovPrefixSql.Update(seq, label)`: the label-dedup gate, then one
`_updateTuple` per sliding window with `initial` true only for the first,
then the final short window, then mark the label seen.  Returns the Python
result (`0` for the deduplicated no-op, `1` otherwise) with the new store. -/
def Update (db : PrefixDB) (seq : List PyStr) (label : Option PyStr) :
    Nat × PrefixDB :=
  if label.isSome ∧ db.ignoreDupes ∧ isLabelSeen db (label.getD []) then
    (0, db)
  else
    let st := (seq.drop (db.max - 1)).foldl
      (fun (acc : List PyStr × Bool × PrefixDB) e =>
        let subseq := acc.1 ++ [e]
        let db1 := updateTupleSql acc.2.2 subseq label acc.2.1
        (subseq.drop 1, false, db1))
      (seq.take (db.max - 1), true, db)
    let db2 := updateTupleSql st.2.2 st.1 label st.2.1
    let db3 := match label with
      | some l => markLabelSeen db2 l
      | none => db2
    (1, db3)

/-- `MarkovPrefixSql._tokenize(string)`.  The `elif self._separator:` branch
reads `self.separator`, an attribute that does not exist (a typo for
`self._separator`), so any truthy separator other than a single space raises
`AttributeError` at run time. -/
def tokenize (db : PrefixDB) (s : PyStr) : Except PyErr (List PyStr) :=
  if db.sep = " ".toList then .ok (splitWS s)
  else if ¬ db.sep.isEmpty then .error .attributeError
  else .ok (s.map (fun c => [c]))

/-- The literal part of the `LIKE` pattern built by `_getPrefixIdLike`
(`join(prefix) + sep + '%'`, or `'%'` alone for an empty prefix). -/
def likeLit (db : PrefixDB) (pfx : List PyStr) : PyStr :=
  if pfx.isEmpty then [] else joinSep db.sep pfx ++ db.sep

/-- ASCII lower-casing, the default collation SQLite `LIKE` compares under
(the code never sets `case_sensitive_like`). -/
def asciiLower (c : Char) : Char :=
  if 'A' ≤ c ∧ c ≤ 'Z' then Char.ofNat (c.toNat + 32) else c

/-- SQL `prefix LIKE 'lit%'` modelled as an ASCII case-insensitive literal
prefix test (the tokens this development instantiates it with contain no
`%`/`_` wildcards). -/
def likeMatch (lit s : PyStr) : Bool :=
  (lit.map asciiLower).isPrefixOf (s.map asciiLower)

/-- The rows scanned by `_getPrefixIdLike`: without `initial`, the matching
`prefixes` rows with `num_seen`; with `initial`, one row per matching leaf
with `initial > 0` carrying `l.initial`. -/
def likeRows (db : PrefixDB) (pfx : List PyStr) (initial : Bool) :
    List (PyStr × Nat) :=
  if initial then
    (db.leaves.filter
        (fun r => likeMatch (likeLit db pfx) r.1.1 && decide (0 < r.2.2))).map
      (fun r => (r.1.1, r.2.2))
  else
    db.prefixes.filter (fun r => likeMatch (likeLit db pfx) r.1)

/-- The `prefix_map` dict accumulated over the rows (collisions summed). -/
def aggRows (rows : List (PyStr × Nat)) : List (PyStr × Nat) :=
  rows.foldl (fun m r => addWeight r.1 r.2 m) []

/-- `MarkovPrefixSql._getPrefixIdLike(prefix, initial)` with draw `v`
(`random.randint(0, total_count-1)`).  `ok none` is the `(None, None)`
return for `total_count == 0`; the scan fall-through is the failing
`assert`; a successful pick returns the matched prefix text, its decoded
token list, and the `_last_prefix_count` it records. -/
def getPrefixIdLike (db : PrefixDB) (pfx : List PyStr) (initial : Bool)
    (v : Nat) : Except PyErr (Option (PyStr × List PyStr × Nat)) :=
  let rows := likeRows db pfx initial
  let total := totalW rows Prod.snd
  if total = 0 then .ok none
  else
    match weightedScan v (aggRows rows) Prod.snd with
    | some (pstr, cnt) =>
      (tokenize db pstr).map (fun toks => some (pstr, toks, cnt))
    | none => .error .assertError

/-- `MarkovPrefixSql._getPrefixId(prefix)` together with the
`_last_prefix_count` it records. -/
def getPrefixIdCnt (db : PrefixDB) (pfx : List PyStr) :
    Option (PyStr × Nat) :=
  let pstr := joinSep db.sep pfx
  (lookupA pstr db.prefixes).map (fun n => (pstr, n))

/-- `MarkovPrefixSql._getRandomLeaf(prefix_id, labelset)` followed by the
result assembly of `GetRandomTuple`: assert `_last_prefix_count > 0`, scan
the prefix's leaf rows with draw `v`, and append the drawn suffix to the
decoded prefix (or return the prefix alone on scan fall-through, the
`return None, None` after the loop). -/
def getRandomLeafStep (db : PrefixDB) (pstr : PyStr) (cnt : Nat)
    (ptoks : List PyStr) (v : Nat) : Except PyErr (List PyStr) :=
  if cnt = 0 then .error .assertError
  else
    let rows := db.leaves.filter (fun r => r.1.1 = pstr)
    match weightedScan v rows (fun r => r.2.1) with
    | some r => .ok (ptoks ++ [r.1.2])
    | none => .ok ptoks

/-- Body of `MarkovPrefixSql.GetRandomTuple` after the depth check: resolve
a prefix (by `LIKE` search when the seed is short, by exact lookup
otherwise), then sample a leaf.  `ds 0` is the draw of `_getPrefixIdLike`
(consumed only when it scans), `ds 1` (resp. `ds 0` on the exact path) the
draw of `_getRandomLeaf`. -/
def getRandomTupleBody (db : PrefixDB) (seed : Option (List PyStr))
    (initial : Bool) (ds : Nat → Nat) : Except PyErr (List PyStr) :=
  let seedL := seed.getD []
  let pfx := seedL.take (db.max - 1)
  if pfx.length < db.max - 1 then
    match getPrefixIdLike db pfx initial (ds 0) with
    | .error e => .error e
    | .ok none => .ok seedL
    | .ok (some (pstr, ptoks, cnt)) => getRandomLeafStep db pstr cnt ptoks (ds 1)
  else
    match getPrefixIdCnt db pfx with
    | none => .ok seedL
    | some (pstr, cnt) => getRandomLeafStep db pstr cnt pfx (ds 0)

/-- `MarkovPrefixSql.GetRandomTuple(seed, depth, labelset, initial)`:
any explicit `depth` different from `max` raises `ValueError`. -/
def GetRandomTuple (db : PrefixDB) (seed : Option (List PyStr))
    (depth : Option Nat) (initial : Bool) (ds : Nat → Nat) :
    Except PyErr (List PyStr) :=
  match depth with
  | some d =>
    if d ≠ db.max then .error .valueError
    else getRandomTupleBody db seed initial ds
  | none => getRandomTupleBody db seed initial ds

end PrefixSql

/-! ## Derived notions used by the verified properties -/

/-- Claim C1's per-leaf invariant in the flat-map backend: the aggregate
count equals the sum of the per-element counts plus the terminator count. -/
def TupleMap.leafInv {α : Type} (l : TupleMap.MCLeaf α) : Prop :=
  l.count = totalW l.elem Prod.snd + l.term

/-- Claim C1's invariant over a whole flat-map chain: every stored leaf
satisfies `leafInv`. -/
def TupleMap.MCInv {α : Type} (mc : TupleMap.MarkovChain α) : Prop :=
  ∀ p ∈ mc.tupleMap, TupleMap.leafInv p.2

/-- A flat-map chain built by a sequence of `Update` calls on a fresh
`MarkovChain(max)`. -/
def TupleMap.buildChain {α : Type} [DecidableEq α] (m : Nat)
    (updates : List (List α × Option String)) : TupleMap.MarkovChain α :=
  updates.foldl (fun mc u => mc.Update u.1 u.2) (TupleMap.mkChain m)

/-- A trie built by a sequence of `Update` calls on a fresh
`MarkovChain(max, min)`. -/
def Tree.buildTree {α : Type} [DecidableEq α] (m minv : Nat)
    (updates : List (List α × Option String)) : Tree.MTree α :=
  updates.foldl (fun t u => Tree.UpdateT m minv t u.1 u.2) Tree.emptyNode

/-- All contiguous windows of length `k` of a sequence — exactly the context
keys the flat-map backend creates when trained on that sequence with
`max = k + 1`. -/
def windowsL {α : Type} (k : Nat) (S : List α) : List (List α) :=
  (List.range (S.length + 1 - k)).map (fun i => (S.drop i).take k)

/-! ## Concrete instances used by counterexamples and witnesses -/

/-- Python truthiness of an `int` token. -/
def natTruthy : Nat → Bool := fun n => n != 0

/-- A draw stream that always draws 0 (the least value, always in range when
the total is positive). -/
def zeroDraws : Nat → Nat := fun _ => 0

/-- A draw stream that always draws 1. -/
def oneDraws : Nat → Nat := fun _ => 1

/-- The flat-map chain over `max = 3` trained on the single sequence
`[1, 2, 3]`. -/
def mcABC : TupleMap.MarkovChain Nat :=
  (TupleMap.mkChain 3).Update [1, 2, 3] none

/-- The flat-map chain over `max = 3` trained on the single sequence
`[1, 1, 1]` (its two context windows coincide). -/
def mcAAA : TupleMap.MarkovChain Nat :=
  (TupleMap.mkChain 3).Update [1, 1, 1] none

/-- The trie over `max = 2` (so `min = 1`) trained on `[1, 2]`. -/
def trieT1 : Tree.MTree Nat :=
  Tree.UpdateT 2 1 Tree.emptyNode [1, 2] none

/-- The trie over `max = 3` (so `min = 2`) trained on `[1, 2, 3]`. -/
def trieT2 : Tree.MTree Nat :=
  Tree.UpdateT 3 2 Tree.emptyNode [1, 2, 3] none

/-- The metadata rows of a store created at schema version 0.0.2. -/
def meta022 : PrefixSql.Metadata :=
  [("schema_version".toList, "0.0.2".toList),
   ("seperator".toList, " ".toList),
   ("max_chain_length".toList, "3".toList)]

/-- The metadata written by a fresh `initMeta` with parameters `m` and `s`
(schema version, stored max, stored separator). -/
def PrefixSql.freshMeta (m : Nat) (s : Option PyStr) : PrefixSql.Metadata :=
  [(PrefixSql.kSchemaVersion, PrefixSql.SCHEMA_VER),
   (PrefixSql.kMaxChainLength, PrefixSql.natToPyStr m),
   (PrefixSql.kSeparator, s.getD " ".toList)]

/-- A persisted store with a seen label, for the dedup witnesses. -/
def dbSeenL : PrefixSql.PrefixDB :=
  (PrefixSql.Update (PrefixSql.mkDB 3 " ".toList true)
    ["a".toList, "b".toList, "c".toList] (some "L".toList)).2

/-! ## Helper lemmas -/

section ScanLemmas

variable {κ ν : Type} [DecidableEq κ]

theorem weightedScan_isSome {l : List ν} {w : ν → Nat} {v : Nat}
    (h : v < totalW l w) : (weightedScan v l w).isSome := by
  induction l generalizing v with
  | nil => simp [totalW] at h
  | cons b r ih =>
    simp only [weightedScan]
    by_cases hb : v < w b
    · simp [hb]
    · simp only [hb, if_false]
      apply ih
      simp only [totalW, List.map_cons, List.sum_cons] at h
      simp only [totalW]
      omega

theorem weightedScan_total_zero {l : List ν} {w : ν → Nat} {v : Nat}
    (h : totalW l w = 0) : weightedScan v l w = none := by
  induction l generalizing v with
  | nil => simp [weightedScan]
  | cons b r ih =>
    simp only [totalW, List.map_cons, List.sum_cons] at h
    simp only [weightedScan]
    have hb : w b = 0 := by omega
    rw [hb]
    simp only [Nat.not_lt_zero, if_false]
    exact ih (by simp [totalW]; omega)

theorem weightedScan_mem {l : List ν} {w : ν → Nat} {v : Nat} {b : ν}
    (h : weightedScan v l w = some b) : b ∈ l := by
  induction l generalizing v with
  | nil => simp [weightedScan] at h
  | cons c r ih =>
    simp only [weightedScan] at h
    by_cases hc : v < w c
    · simp [hc] at h; simp [h]
    · simp only [hc, if_false] at h
      exact List.mem_cons_of_mem _ (ih h)

theorem lookupA_eq_none_iff {l : List (κ × ν)} {k : κ} :
    lookupA k l = none ↔ ∀ p ∈ l, p.1 ≠ k := by
  induction l with
  | nil => simp [lookupA]
  | cons p r ih =>
    simp only [lookupA]
    by_cases hp : p.1 = k
    · simp [hp]
    · simp [hp, ih]

theorem lookupA_isSome_of_mem_keys {l : List (κ × ν)} {k : κ}
    (h : k ∈ l.map Prod.fst) : (lookupA k l).isSome := by
  induction l with
  | nil => simp at h
  | cons p r ih =>
    simp only [lookupA]
    by_cases hp : p.1 = k
    · simp [hp]
    · simp only [hp, if_false]
      apply ih
      simp only [List.map_cons, List.mem_cons] at h
      tauto

theorem lookupA_mem {l : List (κ × ν)} {k : κ} {v : ν}
    (h : lookupA k l = some v) : (k, v) ∈ l := by
  induction l with
  | nil => simp [lookupA] at h
  | cons p r ih =>
    obtain ⟨p1, p2⟩ := p
    simp only [lookupA] at h
    by_cases hp : p1 = k
    · simp only [hp, if_true, Option.some.injEq] at h
      subst hp
      subst h
      exact List.mem_cons_self _ _
    · simp only [hp, if_false] at h
      exact List.mem_cons_of_mem _ (ih h)

theorem mem_setA {l : List (κ × ν)} {k : κ} {v : ν} {p : κ × ν}
    (h : p ∈ setA k v l) : p = (k, v) ∨ p ∈ l := by
  induction l with
  | nil => simp [setA] at h; simp [h]
  | cons q r ih =>
    simp only [setA] at h
    by_cases hq : q.1 = k
    · simp only [hq, if_true, List.mem_cons] at h
      rcases h with h | h
      · exact Or.inl h
      · exact Or.inr (List.mem_cons_of_mem _ h)
    · simp only [hq, if_false, List.mem_cons] at h
      rcases h with h | h
      · exact Or.inr (by simp [h])
      · rcases ih h with h' | h'
        · exact Or.inl h'
        · exact Or.inr (List.mem_cons_of_mem _ h')

theorem sumW_addWeight (l : List (κ × Nat)) (k : κ) (c : Nat) :
    totalW (addWeight k c l) Prod.snd = totalW l Prod.snd + c := by
  induction l with
  | nil => simp [addWeight, totalW]
  | cons p r ih =>
    simp only [addWeight]
    by_cases hp : p.1 = k
    · simp [hp, totalW]; omega
    · simp only [hp, if_false]
      simp [totalW] at ih ⊢
      omega

end ScanLemmas

/-! ## Claim C10 -/

/-- C10: the claim states that encoding a token tuple as a separator-joined
string and decoding it back with `_tokenize` returns the original tuple for
every non-empty separator and separator-free non-empty tokens.  The code is
wrong: `_tokenize` reads `self.separator` — an attribute that does not exist
(the instance attribute is `self._separator`) — so decoding raises
`AttributeError` for every truthy separator other than a single space.  This
theorem evaluates the model at the failing input: separator `","`, tuple
`("a", "b")`, whose encoding is exactly the string `"a,b"`. -/
theorem C10_tokenize_attribute_error :
    PrefixSql.joinSep ",".toList ["a".toList, "b".toList] = "a,b".toList ∧
    PrefixSql.tokenize (PrefixSql.mkDB 3 ",".toList true) "a,b".toList
      = .error .attributeError := by
  exact ⟨rfl, rfl⟩

/-! ## Claim C9 -/

/-- C9 counterexample: the flat-map backend does not reject `depth ≠ max`.
On the chain trained on `[1, 2, 3]` with `max = 3`, `GetRandomTuple` with
explicit `depth = 1` returns the truncated tuple `(1,)` instead of raising an
invalid-argument error, refuting the claim that every explicit depth
different from `max` is rejected in the flat-map backend. -/
theorem C9_flat_depth_not_rejected :
    TupleMap.MarkovChain.GetRandomTuple natTruthy mcABC (some [1, 2]) (some 1)
      zeroDraws = .ok [1] := by
  rfl

/-- C9 amended: the persisted backend rejects every explicit `depth`
different from `max` with `ValueError`; the flat-map backend performs no
validation at all — it truncates the resulting tuple to `depth` elements
(shown here on the concrete chain of the counterexample, where the untruncated
result is `(1, 2, 3)`). -/
theorem C9_depth_validation_amended :
    (∀ (db : PrefixSql.PrefixDB) (seed : Option (List PyStr)) (d : Nat)
        (ini : Bool) (ds : Nat → Nat), d ≠ db.max →
        PrefixSql.GetRandomTuple db seed (some d) ini ds = .error .valueError) ∧
    (TupleMap.MarkovChain.GetRandomTuple natTruthy mcABC (some [1, 2]) none
        zeroDraws = .ok [1, 2, 3] ∧
      TupleMap.MarkovChain.GetRandomTuple natTruthy mcABC (some [1, 2]) (some 1)
        zeroDraws = .ok ([1, 2, 3].take 1)) := by
  refine ⟨?_, rfl, rfl⟩
  intro db seed d ini ds hd
  simp [PrefixSql.GetRandomTuple, hd]

/-- C9 witness: the amended persisted-backend rejection at `depth = 4` on a
store with `max = 3`. -/
theorem C9_depth_validation_witness :
    PrefixSql.GetRandomTuple (PrefixSql.mkDB 3 " ".toList true) none (some 4)
      false zeroDraws = .error .valueError :=
  C9_depth_validation_amended.1 _ _ _ _ _ (by decide)

/-! ## Claim C8 -/

/-- C8 counterexample: opening a store whose metadata records schema version
0.0.2 does not succeed.  `convert_schema` renames the misspelled key and
advances the version only to 0.0.3, and no migration step reaches the code's
current 0.0.4, so `initMeta` raises the configuration error — refuting the
claim that a 0.0.2 store opens successfully at the current version. -/
theorem C8_migration_0_0_2_fails :
    PrefixSql.initMeta meta022 3 none = .error .valueError := by
  rfl

/-- C8 amended: the 0.0.2 → 0.0.3 rename step exists, but the migration
chain stops there: every stored schema version other than the current 0.0.4
— including 0.0.2, whose rename step runs first — makes `convert_schema`
raise the configuration error.  (The part of the claim that a version with
no migration path fails is true; the part that 0.0.2 reaches the current
version is not.) -/
theorem C8_migration_amended :
    ∀ (meta : PrefixSql.Metadata) (v : PyStr), v ≠ PrefixSql.SCHEMA_VER →
      PrefixSql.convert_schema meta v = .error .valueError := by
  intro meta v hv
  unfold PrefixSql.convert_schema
  by_cases h2 : v = "0.0.2".toList
  · subst h2; rfl
  · simp only [h2, if_false]
    simp [hv]

/-- C8 witness: the amended statement at the concrete 0.0.2 store. -/
theorem C8_migration_witness :
    PrefixSql.convert_schema meta022 "0.0.2".toList = .error .valueError :=
  C8_migration_amended meta022 _ (by decide)

/-! ## Claim C4 -/

namespace PrefixSql

theorem getAndIncPrefix_ignoreDupes (db : PrefixDB) (p : List PyStr) :
    (getAndIncPrefix db p).ignoreDupes = db.ignoreDupes := by
  simp only [getAndIncPrefix]
  split <;> rfl

theorem getAndIncPrefix_seenLabels (db : PrefixDB) (p : List PyStr) :
    (getAndIncPrefix db p).seenLabels = db.seenLabels := by
  simp only [getAndIncPrefix]
  split <;> rfl

theorem getAndIncLeaf_ignoreDupes (db : PrefixDB) (ps sf : PyStr)
    (lb : Option PyStr) (ini : Bool) :
    (getAndIncLeaf db ps sf lb ini).ignoreDupes = db.ignoreDupes := by
  simp only [getAndIncLeaf]
  repeat' split
  all_goals rfl

theorem getAndIncLeaf_seenLabels (db : PrefixDB) (ps sf : PyStr)
    (lb : Option PyStr) (ini : Bool) :
    (getAndIncLeaf db ps sf lb ini).seenLabels = db.seenLabels := by
  simp only [getAndIncLeaf]
  repeat' split
  all_goals rfl

theorem updateTupleSql_ignoreDupes (db : PrefixDB) (t : List PyStr)
    (lb : Option PyStr) (ini : Bool) :
    (updateTupleSql db t lb ini).ignoreDupes = db.ignoreDupes := by
  unfold updateTupleSql
  rw [getAndIncLeaf_ignoreDupes, getAndIncPrefix_ignoreDupes]

theorem updateTupleSql_seenLabels (db : PrefixDB) (t : List PyStr)
    (lb : Option PyStr) (ini : Bool) :
    (updateTupleSql db t lb ini).seenLabels = db.seenLabels := by
  unfold updateTupleSql
  rw [getAndIncLeaf_seenLabels, getAndIncPrefix_seenLabels]

/-- A fold preserves any projection its step function preserves. -/
theorem foldl_preserve {σ β γ : Type} (f : σ → β → σ) (g : σ → γ)
    (hf : ∀ s b, g (f s b) = g s) : ∀ (xs : List β) (s : σ), g (xs.foldl f s) = g s := by
  intro xs
  induction xs with
  | nil => intro s; rfl
  | cons x xs ih => intro s; rw [List.foldl_cons, ih, hf]

theorem mem_markLabelSeen (db : PrefixDB) (l : PyStr) :
    l ∈ (markLabelSeen db l).seenLabels := by
  unfold markLabelSeen
  split
  · assumption
  · simp

theorem markLabelSeen_ignoreDupes (db : PrefixDB) (l : PyStr) :
    (markLabelSeen db l).ignoreDupes = db.ignoreDupes := by
  unfold markLabelSeen
  split <;> rfl

/-- With the dedup gate enabled, `Update` on an already-seen label is a
no-op returning the falsy `0`. -/
theorem update_seen_noop (db : PrefixDB) (seq : List PyStr) (l : PyStr)
    (hid : db.ignoreDupes = true) (hseen : isLabelSeen db l = true) :
    Update db seq (some l) = (0, db) := by
  unfold Update
  simp [hid, hseen]

/-- After any `Update` carrying a label, the label is recorded as seen. -/
theorem update_marks_seen (db : PrefixDB) (seq : List PyStr) (l : PyStr) :
    isLabelSeen (Update db seq (some l)).2 l = true := by
  unfold Update
  split
  · rename_i hgate
    exact hgate.2.2
  · simp only [isLabelSeen]
    exact decide_eq_true (mem_markLabelSeen _ _)

/-- `Update` never changes the dedup flag. -/
theorem update_ignoreDupes (db : PrefixDB) (seq : List PyStr)
    (lb : Option PyStr) : (Update db seq lb).2.ignoreDupes = db.ignoreDupes := by
  unfold Update
  split
  · rfl
  · cases lb with
    | none =>
      simp only [updateTupleSql_ignoreDupes]
      exact foldl_preserve _
        (fun st : List PyStr × Bool × PrefixDB => st.2.2.ignoreDupes)
        (fun s b => updateTupleSql_ignoreDupes ..) _ _
    | some l =>
      simp only [markLabelSeen_ignoreDupes, updateTupleSql_ignoreDupes]
      exact foldl_preserve _
        (fun st : List PyStr × Bool × PrefixDB => st.2.2.ignoreDupes)
        (fun s b => updateTupleSql_ignoreDupes ..) _ _

end PrefixSql

/-- C4: with label deduplication enabled, an `Update` whose label was already
marked seen returns the falsy `0` and leaves the whole store — prefix counts,
leaf counts, initial counts, label tables — unchanged; consequently a second
`Update` sharing the label of a first one is a no-op on the store the first
produced, regardless of either sequence's content. -/
theorem C4_label_dedup_idempotent :
    (∀ (db : PrefixSql.PrefixDB) (seq : List PyStr) (l : PyStr),
        db.ignoreDupes = true → PrefixSql.isLabelSeen db l = true →
        PrefixSql.Update db seq (some l) = (0, db)) ∧
    (∀ (db : PrefixSql.PrefixDB) (s1 s2 : List PyStr) (l : PyStr),
        db.ignoreDupes = true →
        PrefixSql.Update (PrefixSql.Update db s1 (some l)).2 s2 (some l)
          = (0, (PrefixSql.Update db s1 (some l)).2)) := by
  refine ⟨PrefixSql.update_seen_noop, ?_⟩
  intro db s1 s2 l hid
  apply PrefixSql.update_seen_noop
  · rw [PrefixSql.update_ignoreDupes]; exact hid
  · exact PrefixSql.update_marks_seen db s1 l

/-- C4 witness: on the concrete store built by one labelled `Update` (label
`"L"`, dedup enabled), a second `Update` with label `"L"` and a different
sequence returns `0` and leaves the store unchanged. -/
theorem C4_label_dedup_witness :
    PrefixSql.Update dbSeenL ["x".toList, "y".toList, "z".toList]
      (some "L".toList) = (0, dbSeenL) :=
  C4_label_dedup_idempotent.1 dbSeenL _ _ (by rfl) (by rfl)

/-! ## Claim C5 -/

section C5Lemmas

variable {α : Type} [DecidableEq α]

theorem shaped_node {m : Nat} {t : Tree.MTree α}
    (h : Tree.ShapedT (m + 1) t = true) : Tree.isNode t = true := by
  match t with
  | .leaf _ _ _ => simp [Tree.ShapedT] at h
  | .node _ _ _ _ => rfl

/-- The walk of `GetRandomTuple` on a seed it does not fully match returns
exactly the maximal leading run of truthy tokens following stored children:
on a shaped tree queried at its own depth, the `depth <= 1` cut coincides
with reaching the `_MCLeaf` level, so the walk stops exactly where
`seedMatchPrefix` does. -/
theorem getRTaux_no_match (tr : α → Bool) (ds : Nat → Nat) :
    ∀ (seed : List α) (m : Nat) (t : Tree.MTree α) (i : Nat),
      Tree.isNode t = true → Tree.ShapedT m t = true →
      Tree.truthyPathT tr t seed = false →
      Tree.getRTaux tr ds m m t seed i
        = .ok (Tree.seedMatchPrefix tr t seed) := by
  intro seed
  induction seed with
  | nil =>
    intro m t i hn hs hp
    simp [Tree.truthyPathT] at hp
  | cons x rest ih =>
    intro m t i hn hs hp
    match t with
    | .node c ls tm ch =>
      cases m with
      | zero =>
        have hch : ch = [] := by
          cases ch with
          | nil => rfl
          | cons a b => simp [Tree.ShapedT] at hs
        subst hch
        cases htr : tr x <;>
          simp [Tree.getRTaux, Tree.seedMatchPrefix, lookupA, htr]
      | succ k =>
        simp only [Tree.getRTaux]
        rw [if_neg (by omega)]
        by_cases hch : ch.isEmpty
        · rw [if_pos hch]
          have hch' : ch = [] := by
            cases ch with
            | nil => rfl
            | cons a b => simp at hch
          subst hch'
          cases htr : tr x <;> simp [Tree.seedMatchPrefix, lookupA, htr]
        · simp only [hch, Bool.false_eq_true, if_false]
          by_cases htrx : tr x
          · simp only [htrx, if_true]
            cases hlk : lookupA x ch with
            | none => simp [Tree.seedMatchPrefix, htrx, hlk]
            | some child =>
              simp only [hlk]
              have hp' : Tree.truthyPathT tr child rest = false := by
                simp only [Tree.truthyPathT, htrx, hlk, Bool.true_and] at hp
                exact hp
              have hs' : Tree.ShapedT k child = true := by
                simp only [Tree.ShapedT, List.all_eq_true] at hs
                exact hs _ (lookupA_mem hlk)
              by_cases hk0 : k = 0
              · subst hk0
                simp only [if_pos rfl]
                have hsmp : Tree.seedMatchPrefix tr child rest = [] := by
                  match child, rest with
                  | .leaf _ _ _, [] => rfl
                  | .leaf _ _ _, _ :: _ => rfl
                  | .node _ _ _ ch2, [] => rfl
                  | .node _ _ _ ch2, y :: r2 =>
                    have hch2 : ch2 = [] := by
                      cases ch2 with
                      | nil => rfl
                      | cons a b => simp [Tree.ShapedT] at hs'
                    subst hch2
                    simp [Tree.seedMatchPrefix, lookupA]
                simp [Tree.seedMatchPrefix, htrx, hlk, hsmp]
              · simp only [hk0, if_false]
                have hn' : Tree.isNode child = true := by
                  match k, hk0 with
                  | k2 + 1, _ => exact shaped_node hs'
                rw [Nat.add_sub_cancel, ih k child i hn' hs' hp']
                simp [Tree.seedMatchPrefix, htrx, hlk, Except.map]
          · simp only [htrx, Bool.false_eq_true, if_false]
            simp [Tree.seedMatchPrefix, htrx]

/-- What the walk accumulates is always a leading prefix of the seed. -/
theorem seedMatchPrefix_prefix (tr : α → Bool) :
    ∀ (seed : List α) (t : Tree.MTree α),
      Tree.seedMatchPrefix tr t seed <+: seed := by
  intro seed
  induction seed with
  | nil =>
    intro t
    match t with
    | .leaf _ _ _ => simp [Tree.seedMatchPrefix]
    | .node _ _ _ _ => simp [Tree.seedMatchPrefix]
  | cons x rest ih =>
    intro t
    match t with
    | .leaf _ _ _ => simp [Tree.seedMatchPrefix]
    | .node c ls tm ch =>
      simp only [Tree.seedMatchPrefix]
      by_cases htr : tr x
      · simp only [htr, if_true]
        cases hlk : lookupA x ch with
        | none => simp
        | some child =>
          simp only [hlk]
          exact List.cons_prefix_cons.mpr ⟨rfl, ih child⟩
      · simp [htr]

end C5Lemmas

/-- C5 counterexample: the claim says that when no stored Context matches the
seed, the trie backend's `GetRandomTuple` returns an empty tuple.  On the
trie built from `[1, 2]` with `max = 2`, no stored context matches the seed
`(1, 3)` (`isPathT` is false), yet the call returns `(1,)` — the matched part
of the seed — not the empty tuple. -/
theorem C5_trie_partial_prefix :
    Tree.isPathT trieT1 [1, 3] = false ∧
    Tree.GetRandomTupleT natTruthy 2 trieT1 [1, 3] none zeroDraws = .ok [1] := by
  exact ⟨rfl, rfl⟩

/-- C5 amended: on a seed its walk does not fully match (some token falsy or
not a stored child), the trie backend returns exactly the maximal leading run
of seed tokens that are truthy and follow stored children
(`seedMatchPrefix`), always a prefix of the seed — so the empty tuple
precisely when already the first token is falsy or matches no stored child,
and a longer proper prefix when only a deeper token fails (per the
counterexample); the persisted backend returns the seed unchanged whenever no
stored prefix matches it (both the short-seed `LIKE` search and the
full-seed exact lookup); and the flat-map backend raises `KeyError` from its
candidate search when no stored key extends a short seed. -/
theorem C5_no_match_amended (α : Type) [DecidableEq α] :
    (∀ (tr : α → Bool) (m c tm : Nat) (lb : List String)
        (ch : List (α × Tree.MTree α)) (x : α) (rest : List α) (ds : Nat → Nat),
        lookupA x ch = none →
        Tree.GetRandomTupleT tr m (.node c lb tm ch) (x :: rest) none ds = .ok []) ∧
    (∀ (tr : α → Bool) (m : Nat) (t : Tree.MTree α) (seed : List α)
        (ds : Nat → Nat),
        Tree.isNode t = true → Tree.ShapedT m t = true →
        Tree.truthyPathT tr t seed = false →
        Tree.GetRandomTupleT tr m t seed none ds
          = .ok (Tree.seedMatchPrefix tr t seed)) ∧
    (∀ (tr : α → Bool) (t : Tree.MTree α) (seed : List α),
        Tree.seedMatchPrefix tr t seed <+: seed) ∧
    (∀ (db : PrefixSql.PrefixDB) (seed : List PyStr) (ini : Bool) (ds : Nat → Nat),
        totalW (PrefixSql.likeRows db (seed.take (db.max - 1)) ini) Prod.snd = 0 →
        PrefixSql.getPrefixIdCnt db (seed.take (db.max - 1)) = none →
        PrefixSql.GetRandomTuple db (some seed) none ini ds = .ok seed) ∧
    (∀ (tr : α → Bool) (mc : TupleMap.MarkovChain α) (s : List α)
        (d : Option Nat) (ds : Nat → Nat),
        s ≠ [] → s.length < mc.max - 1 → mc.cands (some s) = [] →
        TupleMap.MarkovChain.GetRandomTuple tr mc (some s) d ds = .error .keyError) := by
  refine ⟨?_, ?_, ?_, ?_, ?_⟩
  · intro tr m c tm lb ch x rest ds hlk
    cases m with
    | zero => rfl
    | succ k =>
      simp only [Tree.GetRandomTupleT, Tree.getRTaux]
      rw [if_neg (by omega)]
      by_cases hch : ch.isEmpty
      · simp [hch]
      · simp only [hch, Bool.false_eq_true, if_false]
        by_cases htr : tr x
        · simp [htr, hlk]
        · simp [htr]
  · intro tr m t seed ds hn hs hp
    exact getRTaux_no_match tr ds seed m t 0 hn hs hp
  · intro tr t seed
    exact seedMatchPrefix_prefix tr seed t
  · intro db seed ini ds h0 hpid
    simp only [PrefixSql.GetRandomTuple, PrefixSql.getRandomTupleBody, Option.getD_some]
    by_cases hlen : (seed.take (db.max - 1)).length < db.max - 1
    · simp only [hlen, if_true]
      simp [PrefixSql.getPrefixIdLike, h0]
    · simp only [hlen, if_false]
      rw [hpid]
  · intro tr mc s d ds hne hlen hcands
    have hcond : ¬(s ≠ [] ∧ mc.max - 1 ≤ s.length) :=
      fun h => absurd h.2 (by omega)
    simp only [TupleMap.MarkovChain.GetRandomTuple, TupleMap.MarkovChain.GetRandomKey,
      hcond, if_false, TupleMap.MarkovChain.GetRandomKey.step, hcands, List.isEmpty_nil,
      if_true]

/-- C5 witness: the amended statement at concrete inputs — an empty trie node
with unmatched first seed token returns `()`; the trie on `[1, 2]` with the
partially matching seed `(1, 3)` returns exactly its matched prefix, itself a
prefix of the seed; the empty persisted store returns the seed `("q",)`
unchanged; and the flat chain on `[1, 2, 3]` raises `KeyError` for the
unmatched short seed `(7,)`. -/
theorem C5_no_match_witness :
    Tree.GetRandomTupleT natTruthy 3 (.node 0 [] 0 []) [5] none zeroDraws
        = .ok [] ∧
    (Tree.isNode trieT1 = true ∧ Tree.ShapedT 2 trieT1 = true ∧
      Tree.truthyPathT natTruthy trieT1 [1, 3] = false ∧
      Tree.GetRandomTupleT natTruthy 2 trieT1 [1, 3] none zeroDraws
        = .ok (Tree.seedMatchPrefix natTruthy trieT1 [1, 3])) ∧
    Tree.seedMatchPrefix natTruthy trieT1 [1, 3] <+: [1, 3] ∧
    PrefixSql.GetRandomTuple (PrefixSql.mkDB 3 " ".toList true)
        (some ["q".toList]) none false zeroDraws = .ok ["q".toList] ∧
    TupleMap.MarkovChain.GetRandomTuple natTruthy mcABC (some [7]) none
        zeroDraws = .error .keyError := by
  refine ⟨(C5_no_match_amended Nat).1 _ _ _ _ _ _ _ _ _ rfl,
    ⟨rfl, rfl, rfl, (C5_no_match_amended Nat).2.1 _ _ _ _ _ rfl rfl rfl⟩,
    (C5_no_match_amended Nat).2.2.1 _ _ _,
    (C5_no_match_amended Nat).2.2.2.1 _ _ _ _ rfl rfl,
    (C5_no_match_amended Nat).2.2.2.2 _ _ _ _ _ (by decide) (by decide) (by rfl)⟩

/-! ## Claim C3 -/

/-- `prefix_map` accumulation preserves the total weight. -/
theorem totalW_aggRows_general (rows : List (PyStr × Nat))
    (acc : List (PyStr × Nat)) :
    totalW (rows.foldl (fun m r => addWeight r.1 r.2 m) acc) Prod.snd
      = totalW acc Prod.snd + totalW rows Prod.snd := by
  induction rows generalizing acc with
  | nil => simp [totalW]
  | cons r rows ih =>
    simp only [List.foldl_cons]
    rw [ih, sumW_addWeight]
    simp [totalW]
    omega

theorem totalW_aggRows (rows : List (PyStr × Nat)) :
    totalW (PrefixSql.aggRows rows) Prod.snd = totalW rows Prod.snd := by
  unfold PrefixSql.aggRows
  rw [totalW_aggRows_general]
  simp [totalW]

/-- C3: correctness of the weighted selection scans.  (1) Whenever the drawn
value is below the total weight, the generic scan selects some candidate, so
the fall-through branch past the loop is unreachable; (2) when the total is
zero the scan selects nothing; (3) at the flat-map call site
(`_GetRandomKey`), a draw below the candidates' total weight yields an `ok`
key — never the `RuntimeError` fall-through; (4) at the persisted call site
(`_getPrefixIdLike`), a zero total yields the quiet `(None, None)` rather
than an error, and (5) a draw below the total never reaches the failing
`assert` after the scan. -/
theorem C3_weighted_scan_exact (α : Type) [DecidableEq α] :
    (∀ (ν : Type) (l : List ν) (w : ν → Nat) (v : Nat),
        v < totalW l w → (weightedScan v l w).isSome) ∧
    (∀ (ν : Type) (l : List ν) (w : ν → Nat) (v : Nat),
        totalW l w = 0 → weightedScan v l w = none) ∧
    (∀ (mc : TupleMap.MarkovChain α) (seed : Option (List α)) (ds : Nat → Nat)
        (i : Nat), ds i < totalW (mc.cands seed) mc.keyWeight →
        ∃ k, mc.GetRandomKey seed ds i = (.ok k, i + 1) ∨
          mc.GetRandomKey seed ds i = (.ok k, i)) ∧
    (∀ (db : PrefixSql.PrefixDB) (pfx : List PyStr) (ini : Bool) (v : Nat),
        totalW (PrefixSql.likeRows db pfx ini) Prod.snd = 0 →
        PrefixSql.getPrefixIdLike db pfx ini v = .ok none) ∧
    (∀ (db : PrefixSql.PrefixDB) (pfx : List PyStr) (ini : Bool) (v : Nat),
        v < totalW (PrefixSql.likeRows db pfx ini) Prod.snd →
        PrefixSql.getPrefixIdLike db pfx ini v ≠ .error .assertError) := by
  refine ⟨fun ν l w v h => weightedScan_isSome h,
    fun ν l w v h => weightedScan_total_zero h, ?_, ?_, ?_⟩
  · intro mc seed ds i hv
    match seed with
    | some s =>
      by_cases hsc : s ≠ [] ∧ mc.max - 1 ≤ s.length
      · exact ⟨s, Or.inr (by simp [TupleMap.MarkovChain.GetRandomKey, hsc])⟩
      · have hne : ¬(mc.cands (some s)).isEmpty := by
          intro he
          rw [List.isEmpty_iff] at he
          rw [he] at hv
          simp [totalW] at hv
        obtain ⟨k, hk⟩ := Option.isSome_iff_exists.mp (weightedScan_isSome hv)
        refine ⟨k, Or.inl ?_⟩
        unfold TupleMap.MarkovChain.GetRandomKey
        show (if s ≠ [] ∧ mc.max - 1 ≤ s.length
              then ((Except.ok s : Except PyErr (List α)), i)
              else TupleMap.MarkovChain.GetRandomKey.step mc ds i (mc.cands (some s)))
            = (Except.ok k, i + 1)
        rw [if_neg hsc]
        simp [TupleMap.MarkovChain.GetRandomKey.step, hne, hk]
    | none =>
      have hne : ¬(mc.cands none).isEmpty := by
        intro he
        rw [List.isEmpty_iff] at he
        rw [he] at hv
        simp [totalW] at hv
      obtain ⟨k, hk⟩ := Option.isSome_iff_exists.mp (weightedScan_isSome hv)
      refine ⟨k, Or.inl ?_⟩
      simp [TupleMap.MarkovChain.GetRandomKey,
        TupleMap.MarkovChain.GetRandomKey.step, hne, hk]
  · intro db pfx ini v h0
    simp [PrefixSql.getPrefixIdLike, h0]
  · intro db pfx ini v hv
    unfold PrefixSql.getPrefixIdLike
    rw [if_neg (by omega)]
    have hscan : (weightedScan v (PrefixSql.aggRows (PrefixSql.likeRows db pfx ini))
        Prod.snd).isSome := by
      apply weightedScan_isSome
      rw [totalW_aggRows]
      exact hv
    obtain ⟨⟨ps, c⟩, hk⟩ := Option.isSome_iff_exists.mp hscan
    rw [hk]
    cases htok : PrefixSql.tokenize db ps <;> simp [htok, Except.map]
    rename_i e
    cases e <;> simp [PrefixSql.tokenize] at htok ⊢
    split at htok <;> simp_all
    split at htok <;> simp_all

/-- C3 witness: the scan parts at concrete inputs — a two-candidate scan with
draw 1 selects the second candidate; a zero-total scan selects nothing; the
flat chain on `[1, 2, 3]` resolves the short seed `(2,)`; the empty persisted
store quietly reports no prefix; a one-row store with a valid draw does not
hit the assert. -/
theorem C3_weighted_scan_witness :
    (weightedScan 1 [(0, 1), (1, 1)] Prod.snd).isSome = true ∧
    weightedScan 0 ([] : List (Nat × Nat)) Prod.snd = none ∧
    (∃ k, mcABC.GetRandomKey (some [2]) zeroDraws 0 = (.ok k, 1) ∨
      mcABC.GetRandomKey (some [2]) zeroDraws 0 = (.ok k, 0)) ∧
    PrefixSql.getPrefixIdLike (PrefixSql.mkDB 3 " ".toList true) [] false 0
      = .ok none ∧
    PrefixSql.getPrefixIdLike dbSeenL [] false 0 ≠ .error .assertError := by
  refine ⟨(C3_weighted_scan_exact Nat).1 _ _ _ _ (by decide),
    (C3_weighted_scan_exact Nat).2.1 _ _ _ _ (by decide),
    (C3_weighted_scan_exact Nat).2.2.1 mcABC (some [2]) zeroDraws 0 (by decide),
    (C3_weighted_scan_exact Nat).2.2.2.1 _ _ _ _ (by decide),
    (C3_weighted_scan_exact Nat).2.2.2.2 _ _ _ _ (by decide)⟩

/-! ## Claim C7 -/

namespace PrefixSql

theorem natDigitsRev_zero (fuel : Nat) : natDigitsRev fuel 0 = [] := by
  cases fuel <;> rfl

theorem digitChar_toNat_sub (d : Nat) (h : d < 10) :
    (Nat.digitChar d).toNat - 48 = d := by
  interval_cases d <;> rfl

theorem pyStrToNat_append (a b : PyStr) :
    pyStrToNat (a ++ b) = b.foldl (fun x c => 10 * x + (c.toNat - 48)) (pyStrToNat a) := by
  unfold pyStrToNat
  rw [List.foldl_append]

theorem pyStrToNat_digits (fuel n : Nat) (hpos : 0 < n) (hle : n ≤ fuel) :
    pyStrToNat (((natDigitsRev fuel n).map Nat.digitChar).reverse) = n := by
  induction fuel generalizing n with
  | zero => omega
  | succ fuel ih =>
    unfold natDigitsRev
    rw [if_neg (by omega)]
    simp only [List.map_cons, List.reverse_cons]
    rw [pyStrToNat_append]
    simp only [List.foldl_cons, List.foldl_nil]
    rw [digitChar_toNat_sub _ (Nat.mod_lt _ (by omega))]
    by_cases hq : n / 10 = 0
    · rw [hq, natDigitsRev_zero]
      simp only [List.map_nil, List.reverse_nil]
      have h10 : n % 10 = n := Nat.mod_eq_of_lt (by omega)
      simp [pyStrToNat, h10]
    · have hlt : n / 10 < n := Nat.div_lt_self hpos (by omega)
      rw [ih (n / 10) (by omega) (by omega)]
      omega

/-- `int(str(n)) == n`: the decimal round trip used by the `max` check of
`initMeta`. -/
theorem pyStrToNat_natToPyStr (n : Nat) : pyStrToNat (natToPyStr n) = n := by
  unfold natToPyStr
  by_cases h0 : n = 0
  · simp [h0, pyStrToNat]
  · rw [if_neg h0]
    exact pyStrToNat_digits n n (by omega) (by omega)

end PrefixSql

/-- C7: `max` and `separator` are persisted into the metadata on first
creation (first conjunct: a fresh open writes the schema version, the
stringified `max` and the separator — defaulting to a single space), and a
later open of the same store fails fast with the configuration error
(`ValueError`) whenever it passes a different `max` (second conjunct, via the
decimal round trip `int(str(m)) = m`) or a different explicit separator
(third conjunct). -/
theorem C7_meta_persisted_and_checked :
    (∀ (m : Nat) (s : Option PyStr),
        PrefixSql.initMeta [] m s
          = .ok (PrefixSql.freshMeta m s, s.getD " ".toList)) ∧
    (∀ (m m2 : Nat) (s : Option PyStr) (s2 : Option PyStr), m2 ≠ m →
        PrefixSql.initMeta (PrefixSql.freshMeta m s) m2 s2
          = .error .valueError) ∧
    (∀ (m : Nat) (s s2 : PyStr), s2 ≠ s →
        PrefixSql.initMeta (PrefixSql.freshMeta m (some s)) m (some s2)
          = .error .valueError) := by
  refine ⟨?_, ?_, ?_⟩
  · intro m s
    simp +decide [PrefixSql.initMeta, PrefixSql.getMeta, PrefixSql.setMeta,
      PrefixSql.freshMeta, List.find?]
    rfl
  · intro m m2 s s2 hne
    simp +decide [PrefixSql.initMeta, PrefixSql.getMeta, PrefixSql.setMeta,
      PrefixSql.freshMeta, List.find?, PrefixSql.pyStrToNat_natToPyStr,
      Ne.symm hne]
    rfl
  · intro m s s2 hne
    simp +decide [PrefixSql.initMeta, PrefixSql.getMeta, PrefixSql.setMeta,
      PrefixSql.freshMeta, List.find?, PrefixSql.pyStrToNat_natToPyStr, hne,
      Ne.symm hne]

/-- C7 witness: the spec's Example 2 — a store created with `max = 3` and the
default separator, reopened with `max = 4`, fails with the configuration
error; and reopening with separator `","` instead of the stored `" "` also
fails. -/
theorem C7_meta_witness :
    PrefixSql.initMeta [] 3 none
        = .ok (PrefixSql.freshMeta 3 none, " ".toList) ∧
    PrefixSql.initMeta (PrefixSql.freshMeta 3 none) 4 none
        = .error .valueError ∧
    PrefixSql.initMeta (PrefixSql.freshMeta 3 (some " ".toList)) 3
        (some ",".toList) = .error .valueError := by
  refine ⟨C7_meta_persisted_and_checked.1 3 none,
    C7_meta_persisted_and_checked.2.1 3 4 none none (by decide),
    C7_meta_persisted_and_checked.2.2 3 " ".toList ",".toList (by decide)⟩

/-! ## Claim C1 -/

section C1Lemmas

variable {κ ν α : Type} [DecidableEq κ] [DecidableEq α]

/-- A fold preserves any invariant its step function preserves. -/
theorem foldl_inv {σ β : Type} (P : σ → Prop) (f : σ → β → σ)
    (hf : ∀ s b, P s → P (f s b)) :
    ∀ (xs : List β) (s : σ), P s → P (xs.foldl f s) := by
  intro xs
  induction xs with
  | nil => intro s hs; exact hs
  | cons x xs ih => intro s hs; exact ih _ (hf _ _ hs)

theorem leafInv_mk (e : Option α) (lb : Option String) :
    TupleMap.leafInv (TupleMap.mkMCLeaf e lb) := by
  cases e <;> simp [TupleMap.mkMCLeaf, TupleMap.leafInv, totalW]

theorem leafInv_update {l : TupleMap.MCLeaf α} (h : TupleMap.leafInv l)
    (e : Option α) (lb : Option String) : TupleMap.leafInv (l.Update e lb) := by
  cases e with
  | none =>
    simp only [TupleMap.MCLeaf.Update, TupleMap.leafInv] at h ⊢
    omega
  | some x =>
    simp only [TupleMap.MCLeaf.Update, TupleMap.leafInv] at h ⊢
    rw [sumW_addWeight]
    omega

theorem mcInv_updateTuple {mc : TupleMap.MarkovChain α} (h : TupleMap.MCInv mc)
    (t : List α) (lb : Option String) : TupleMap.MCInv (mc.UpdateTuple t lb) := by
  unfold TupleMap.MarkovChain.UpdateTuple
  split
  · exact h
  · intro p hp
    simp only at hp
    split at hp
    · rename_i leaf hleaf
      rcases mem_setA hp with hpe | hpe
      · rw [hpe]
        exact leafInv_update (h _ (lookupA_mem hleaf)) _ _
      · exact h _ hpe
    · rcases List.mem_append.mp hp with hpe | hpe
      · exact h _ hpe
      · simp only [List.mem_singleton] at hpe
        rw [hpe]
        exact leafInv_mk _ _

theorem mcInv_update {mc : TupleMap.MarkovChain α} (h : TupleMap.MCInv mc)
    (seq : List α) (lb : Option String) : TupleMap.MCInv (mc.Update seq lb) := by
  unfold TupleMap.MarkovChain.Update
  apply mcInv_updateTuple
  exact foldl_inv TupleMap.MCInv _ (fun s b hs => mcInv_updateTuple hs _ _) _ _ h

/-- Every update bumps a node's aggregate count by exactly one. -/
theorem updateTupleT_cnt (lb : Option String) (ts : List α) (m : Nat)
    (excl : Int) (t : Tree.MTree α) :
    (Tree.updateTupleT lb ts m excl t).cnt = t.cnt + 1 := by
  match t, ts with
  | .leaf c ls tm, l => simp only [Tree.updateTupleT, Tree.MTree.cnt]
  | .node c ls tm ch, [] => simp only [Tree.updateTupleT, Tree.MTree.cnt]
  | .node c ls tm ch, x :: xs =>
    simp only [Tree.updateTupleT]
    split <;> simp only [Tree.MTree.cnt]

theorem sumCnt_setA_some (k : α) (v : Tree.MTree α) :
    ∀ (ch : List (α × Tree.MTree α)) (w : Tree.MTree α),
      lookupA k ch = some w →
      ((setA k v ch).map (fun p => p.2.cnt)).sum + w.cnt
        = ((ch.map (fun p => p.2.cnt)).sum + v.cnt) := by
  intro ch
  induction ch with
  | nil => intro w hw; simp [lookupA] at hw
  | cons p r ih =>
    intro w hw
    simp only [lookupA] at hw
    by_cases hp : p.1 = k
    · simp only [hp, if_true, Option.some.injEq] at hw
      simp only [setA, hp, if_true, List.map_cons, List.sum_cons]
      rw [← hw]
      omega
    · simp only [hp, if_false] at hw
      simp only [setA, hp, if_false, List.map_cons, List.sum_cons]
      have := ih w hw
      omega

theorem sumCnt_setA_none (k : α) (v : Tree.MTree α) :
    ∀ (ch : List (α × Tree.MTree α)), lookupA k ch = none →
      ((setA k v ch).map (fun p => p.2.cnt)).sum
        = (ch.map (fun p => p.2.cnt)).sum + v.cnt := by
  intro ch
  induction ch with
  | nil => intro _; simp [setA]
  | cons p r ih =>
    intro hw
    simp only [lookupA] at hw
    by_cases hp : p.1 = k
    · simp [hp] at hw
    · simp only [hp, if_false] at hw
      simp only [setA, hp, if_false, List.map_cons, List.sum_cons]
      have := ih hw
      omega

/-- The fresh child created for an unseen token satisfies the invariant at
its level. -/
theorem invT_newChild (k : Nat) :
    Tree.InvT k (if k + 1 = 1 then (Tree.MTree.leaf 0 [] 0 : Tree.MTree α)
      else Tree.MTree.node 0 [] 0 []) := by
  by_cases hk : k + 1 = 1
  · have hk0 : k = 0 := by omega
    subst hk0
    simp only [if_pos rfl, Tree.InvT]
  · rw [if_neg hk]
    match k with
    | 0 => exact ⟨rfl, rfl⟩
    | j + 1 => exact ⟨rfl, by intro p hp; simp at hp⟩

theorem invT_updateTupleT (lb : Option String) :
    ∀ (m : Nat) (ts : List α) (excl : Int) (t : Tree.MTree α),
      Tree.InvT m t → Tree.InvT m (Tree.updateTupleT lb ts m excl t) := by
  intro m
  induction m with
  | zero =>
    intro ts excl t h
    match t, ts with
    | .leaf c ls tm, l =>
      simp only [Tree.updateTupleT]
      simp only [Tree.InvT] at h ⊢
      omega
    | .node c ls tm ch, [] =>
      simp only [Tree.updateTupleT]
      simp only [Tree.InvT] at h ⊢
      exact ⟨h.1, by omega⟩
    | .node c ls tm ch, x :: xs =>
      simp only [Tree.updateTupleT, if_pos rfl]
      simp only [Tree.InvT] at h ⊢
      exact ⟨h.1, by omega⟩
  | succ k ih =>
    intro ts excl t h
    match t, ts with
    | .node c ls tm ch, [] =>
      simp only [Tree.updateTupleT]
      simp only [Tree.InvT] at h ⊢
      exact ⟨by omega, h.2⟩
    | .node c ls tm ch, x :: xs =>
      simp only [Tree.updateTupleT, if_neg (Nat.succ_ne_zero k)]
      simp only [Tree.InvT] at h ⊢
      cases hlk : lookupA x ch with
      | some w =>
        simp only [Option.getD_some]
        constructor
        · have hs := sumCnt_setA_some x
            (Tree.updateTupleT lb xs (k + 1 - 1) (excl - 1) w) ch w hlk
          have hc := updateTupleT_cnt lb xs (k + 1 - 1) (excl - 1) w
          omega
        · intro p hp
          rcases mem_setA hp with hpe | hpe
          · rw [hpe]
            have : k + 1 - 1 = k := rfl
            rw [this]
            exact ih xs (excl - 1) w (h.2 _ (lookupA_mem hlk))
          · exact h.2 _ hpe
      | none =>
        simp only [Option.getD_none]
        constructor
        · have hs := sumCnt_setA_none x
            (Tree.updateTupleT lb xs (k + 1 - 1) (excl - 1)
              (if k + 1 = 1 then (Tree.MTree.leaf 0 [] 0 : Tree.MTree α)
               else Tree.MTree.node 0 [] 0 [])) ch hlk
          have hc := updateTupleT_cnt lb xs (k + 1 - 1) (excl - 1)
            (if k + 1 = 1 then (Tree.MTree.leaf 0 [] 0 : Tree.MTree α)
             else Tree.MTree.node 0 [] 0 [])
          have hc0 : (if k + 1 = 1 then (Tree.MTree.leaf 0 [] 0 : Tree.MTree α)
              else Tree.MTree.node 0 [] 0 []).cnt = 0 := by
            split <;> rfl
          omega
        · intro p hp
          rcases mem_setA hp with hpe | hpe
          · rw [hpe]
            have : k + 1 - 1 = k := rfl
            rw [this]
            exact ih xs (excl - 1) _ (invT_newChild k)
          · exact h.2 _ hpe

theorem invT_updateT {t : Tree.MTree α} (m minv : Nat) (h : Tree.InvT m t)
    (seq : List α) (lb : Option String) :
    Tree.InvT m (Tree.UpdateT m minv t seq lb) := by
  unfold Tree.UpdateT
  exact foldl_inv (Tree.InvT m) _
    (fun s b hs => invT_updateTupleT lb m _ _ s hs) _ _ h

end C1Lemmas

/-- C1: after every `Update`, in the flat-map backend every stored leaf's
aggregate count equals the sum of its per-element counts plus its terminator
count (`term`, the ghost count of terminating updates at that leaf), and in
the trie backend every node's count equals the sum of its children's counts
plus the number of terminating updates recorded at that node (`InvT`, which
also pins the leaf/node shape) — both stated for a chain freshly constructed
and then updated with an arbitrary list of sequences and labels. -/
theorem C1_count_invariant (α : Type) [DecidableEq α] :
    (∀ (m : Nat) (updates : List (List α × Option String)),
        TupleMap.MCInv (TupleMap.buildChain m updates)) ∧
    (∀ (m minv : Nat) (updates : List (List α × Option String)),
        Tree.InvT m (Tree.buildTree m minv updates)) := by
  constructor
  · intro m updates
    unfold TupleMap.buildChain
    apply foldl_inv TupleMap.MCInv _ (fun s b hs => mcInv_update hs _ _)
    intro p hp
    simp [TupleMap.mkChain] at hp
  · intro m minv updates
    unfold Tree.buildTree
    apply foldl_inv (Tree.InvT m) _ (fun s b hs => invT_updateT m minv hs _ _)
    match m with
    | 0 => exact ⟨rfl, rfl⟩
    | k + 1 => exact ⟨rfl, by intro p hp; simp [Tree.emptyNode] at hp⟩

/-! ## Claim C6 -/

section C6Lemmas

variable {α : Type} [DecidableEq α]

/-- On a shaped chain node, the no-seed walk never raises: every outcome of
the random descent is some `ok` tuple. -/
theorem getRTaux_noseed_ok (tr : α → Bool) (ds : Nat → Nat) :
    ∀ (d m : Nat) (t : Tree.MTree α) (i : Nat),
      Tree.isNode t = true → Tree.ShapedT m t = true → d ≤ m →
      ∃ r, Tree.getRTaux tr ds d m t [] i = .ok r := by
  intro d
  induction d with
  | zero =>
    intro m t i hn hs hdm
    match t with
    | .node c ls tm ch => exact ⟨[], by simp [Tree.getRTaux]⟩
  | succ d ih =>
    intro m t i hn hs hdm
    match t with
    | .node c ls tm ch =>
      simp only [Tree.getRTaux]
      rw [if_neg (by omega)]
      by_cases hch : ch.isEmpty
      · exact ⟨[], by simp [hch]⟩
      · simp only [hch, Bool.false_eq_true, if_false]
        cases hscan : weightedScan (ds i) ch (fun p => p.2.cnt) with
        | none => exact ⟨[], rfl⟩
        | some p =>
          obtain ⟨x, child⟩ := p
          by_cases htr : tr x
          · by_cases hd0 : d = 0
            · subst hd0
              exact ⟨[x], by simp [htr]⟩
            · have hmem := weightedScan_mem hscan
              match m, hdm with
              | m' + 1, _ =>
                have hs' : Tree.ShapedT m' child = true := by
                  simp only [Tree.ShapedT, List.all_eq_true] at hs
                  exact hs _ hmem
                have hm1 : 1 ≤ m' := by omega
                have hn' : Tree.isNode child = true := by
                  match m', hm1 with
                  | m'' + 1, _ => exact shaped_node hs'
                obtain ⟨r, hr⟩ := ih m' child (i + 1) hn' hs' (by omega)
                refine ⟨x :: r, ?_⟩
                simp only [htr, if_true, hd0, if_false, Nat.add_sub_cancel, hr,
                  Except.map]
          · exact ⟨[], by simp [htr]⟩

/-- On a shaped chain node, a truthy seed lying on a stored path and shorter
than the requested depth is consumed entirely, and the walk returns an `ok`
tuple extending it. -/
theorem getRTaux_seed_ok (tr : α → Bool) (ds : Nat → Nat) :
    ∀ (seed : List α) (d m : Nat) (t : Tree.MTree α) (i : Nat),
      Tree.isNode t = true → Tree.ShapedT m t = true →
      Tree.isPathT t seed = true → (∀ x ∈ seed, tr x = true) →
      seed.length + 1 ≤ d → d ≤ m →
      ∃ r, Tree.getRTaux tr ds d m t seed i = .ok (seed ++ r) := by
  intro seed
  induction seed with
  | nil =>
    intro d m t i hn hs _ _ _ hdm
    simpa using getRTaux_noseed_ok tr ds d m t i hn hs hdm
  | cons x rest ih =>
    intro d m t i hn hs hp htr hlen hdm
    match t with
    | .node c ls tm ch =>
      simp only [List.length_cons] at hlen
      cases d with
      | zero => exact absurd hlen (by omega)
      | succ dd =>
        cases m with
        | zero => exact absurd hdm (by omega)
        | succ m' =>
          simp only [Tree.getRTaux]
          rw [if_neg (by omega)]
          simp only [Tree.isPathT] at hp
          cases hlk : lookupA x ch with
          | none => rw [hlk] at hp; simp at hp
          | some child =>
            rw [hlk] at hp
            have hche : ch.isEmpty = false := by
              cases ch
              · simp [lookupA] at hlk
              · rfl
            simp only [hche, Bool.false_eq_true, if_false]
            have htrx : tr x = true := htr x (List.mem_cons_self x rest)
            simp only [htrx, if_true, hlk]
            have hdd0 : ¬ dd = 0 := by omega
            simp only [hdd0, if_false]
            have hs' : Tree.ShapedT m' child = true := by
              simp only [Tree.ShapedT, List.all_eq_true] at hs
              exact hs _ (lookupA_mem hlk)
            have hm1 : 1 ≤ m' := by omega
            have hn' : Tree.isNode child = true := by
              match m', hm1 with
              | m'' + 1, _ => exact shaped_node hs'
            obtain ⟨r, hr⟩ := ih dd m' child i hn' hs' hp
              (fun y hy => htr y (List.mem_cons_of_mem _ hy))
              (by omega) (by omega)
            refine ⟨r, ?_⟩
            simp only [Nat.add_sub_cancel, hr, Except.map, List.cons_append]

end C6Lemmas

/-- C6 counterexample: the claim says a seed shorter than `max - 1` never
errors in any backend; but in the flat-map backend a short seed matched by no
stored key raises `KeyError`.  On the chain trained on `[1, 2, 3]`
(`max = 3`), the seed `(7,)` has length `1 < 2` and the call raises. -/
theorem C6_partial_seed_counterexample :
    [7].length < mcABC.max - 1 ∧
    TupleMap.MarkovChain.GetRandomTuple natTruthy mcABC (some [7]) none
      zeroDraws = .error .keyError := by
  exact ⟨by decide, rfl⟩

/-- C6 amended: a seed shorter than `max - 1` yields a tuple whose leading
tokens equal the seed, provided something matches it: in the flat-map
backend, when at least one stored key extends the seed and the draw is in
range (otherwise `KeyError` per the counterexample); in the trie backend,
when the seed is a stored path of truthy tokens (otherwise a shorter tuple is
returned, cf. C5); in the persisted backend, when no stored prefix matches,
the seed itself comes back unchanged (the successful-match path runs
`_tokenize`, which fails for non-space separators, cf. C10). -/
theorem C6_partial_seed_amended (α : Type) [DecidableEq α] :
    (∀ (tr : α → Bool) (mc : TupleMap.MarkovChain α) (s : List α)
        (ds : Nat → Nat),
        s ≠ [] → s.length < mc.max - 1 →
        ds 0 < totalW (mc.cands (some s)) mc.keyWeight →
        ∃ r, TupleMap.MarkovChain.GetRandomTuple tr mc (some s) none ds
            = .ok r ∧ s <+: r) ∧
    (∀ (tr : α → Bool) (m : Nat) (t : Tree.MTree α) (seed : List α)
        (ds : Nat → Nat),
        Tree.isNode t = true → Tree.ShapedT m t = true →
        Tree.isPathT t seed = true → (∀ x ∈ seed, tr x = true) →
        seed.length < m - 1 →
        ∃ r, Tree.GetRandomTupleT tr m t seed none ds = .ok (seed ++ r)) ∧
    (∀ (db : PrefixSql.PrefixDB) (seed : List PyStr) (ini : Bool)
        (ds : Nat → Nat),
        seed.length < db.max - 1 →
        totalW (PrefixSql.likeRows db seed ini) Prod.snd = 0 →
        PrefixSql.GetRandomTuple db (some seed) none ini ds = .ok seed) := by
  refine ⟨?_, ?_, ?_⟩
  · intro tr mc s ds hne hlen hv
    have hsc : ¬(s ≠ [] ∧ mc.max - 1 ≤ s.length) :=
      fun h => absurd h.2 (by omega)
    obtain ⟨k, hk⟩ := Option.isSome_iff_exists.mp (weightedScan_isSome hv)
    have hkc := weightedScan_mem hk
    have hkf : k ∈ (mc.tupleMap.map Prod.fst).filter
        (fun tup => tup.take s.length = s) := by
      simpa [TupleMap.MarkovChain.cands] using hkc
    have hkeys : k ∈ mc.tupleMap.map Prod.fst := (List.mem_filter.mp hkf).1
    have hktake : k.take s.length = s := by
      have := (List.mem_filter.mp hkf).2
      simpa using this
    have hpre : s <+: k := by
      rw [← hktake]
      exact List.take_prefix _ _
    have hkne : k.isEmpty = false := by
      cases k
      · rw [List.take_nil] at hktake
        exact absurd hktake.symm hne
      · rfl
    have hcne : ¬ (mc.cands (some s)).isEmpty := by
      intro h0
      rw [List.isEmpty_iff] at h0
      rw [h0] at hkc
      simp at hkc
    obtain ⟨leaf, hleaf⟩ :=
      Option.isSome_iff_exists.mp (lookupA_isSome_of_mem_keys hkeys)
    have hkey : mc.GetRandomKey (some s) ds 0 = (.ok k, 1) := by
      unfold TupleMap.MarkovChain.GetRandomKey
      show (if s ≠ [] ∧ mc.max - 1 ≤ s.length
            then ((Except.ok s : Except PyErr (List α)), 0)
            else TupleMap.MarkovChain.GetRandomKey.step mc ds 0 (mc.cands (some s)))
          = (Except.ok k, 0 + 1)
      rw [if_neg hsc]
      simp [TupleMap.MarkovChain.GetRandomKey.step, hcne, hk]
    cases he : TupleMap.MCLeaf.GetRandomElement leaf (ds 1) with
    | none =>
      refine ⟨k, ?_, hpre⟩
      unfold TupleMap.MarkovChain.GetRandomTuple
      rw [hkey]
      simp [hkne, hleaf, he]
    | some e =>
      by_cases htre : tr e
      · refine ⟨k ++ [e], ?_, hpre.trans (List.prefix_append k [e])⟩
        unfold TupleMap.MarkovChain.GetRandomTuple
        rw [hkey]
        simp [hkne, hleaf, he, htre]
      · refine ⟨k, ?_, hpre⟩
        unfold TupleMap.MarkovChain.GetRandomTuple
        rw [hkey]
        simp [hkne, hleaf, he, htre]
  · intro tr m t seed ds hn hs hp htr hlen
    have h1 : seed.length + 1 ≤ m := by omega
    obtain ⟨r, hr⟩ := getRTaux_seed_ok tr ds seed m m t 0 hn hs hp htr h1 (by omega)
    exact ⟨r, hr⟩
  · intro db seed ini ds hlen h0
    have htake : seed.take (db.max - 1) = seed :=
      List.take_of_length_le (by omega)
    simp only [PrefixSql.GetRandomTuple, PrefixSql.getRandomTupleBody,
      Option.getD_some]
    rw [htake]
    rw [if_pos (by omega)]
    simp [PrefixSql.getPrefixIdLike, h0]

/-- C6 witness: the amended statement at concrete inputs — the flat chain on
`[1, 2, 3]` extends the seed `(1,)` to `(1, 2, 3)`; the trie on `[1, 2, 3]`
with `max = 3` extends the same seed; the empty persisted store returns the
seed `("q",)` unchanged. -/
theorem C6_partial_seed_witness :
    (∃ r, TupleMap.MarkovChain.GetRandomTuple natTruthy mcABC (some [1]) none
        zeroDraws = .ok r ∧ [1] <+: r) ∧
    (∃ r, Tree.GetRandomTupleT natTruthy 3 trieT2 [1] none zeroDraws
        = .ok ([1] ++ r)) ∧
    PrefixSql.GetRandomTuple (PrefixSql.mkDB 3 " ".toList true)
      (some ["q".toList]) none false zeroDraws = .ok ["q".toList] := by
  refine ⟨(C6_partial_seed_amended Nat).1 natTruthy mcABC [1] zeroDraws
      (by decide) (by decide) (by decide),
    (C6_partial_seed_amended Nat).2.1 natTruthy 3 trieT2 [1] zeroDraws
      (by rfl) (by rfl) (by rfl) (by decide) (by decide),
    (C6_partial_seed_amended Nat).2.2 _ _ _ _ (by decide) (by decide)⟩

/-! ## Claim C2 -/

section C2Lemmas

variable {α : Type} [DecidableEq α]

theorem nodup_map_range_inj {κ : Type} (g : Nat → κ) (KK : Nat)
    (hnd : ((List.range KK).map g).Nodup) :
    ∀ i j, i < KK → j < KK → g i = g j → i = j := by
  intro i j hi hj hg
  have hi' : i < ((List.range KK).map g).length := by simp [hi]
  have hj' : j < ((List.range KK).map g).length := by simp [hj]
  have hgi : ((List.range KK).map g)[i] = g i := by
    rw [List.getElem_map]
    congr 1
    exact List.getElem_range _ _
  have hgj : ((List.range KK).map g)[j] = g j := by
    rw [List.getElem_map]
    congr 1
    exact List.getElem_range _ _
  exact (hnd.getElem_inj_iff).mp (by rw [hgi, hgj]; exact hg)

theorem lookupA_map_of_nodup {κ ν : Type} [DecidableEq κ] (g : Nat → κ)
    (f : Nat → ν) :
    ∀ (is : List Nat), (is.map g).Nodup → ∀ j ∈ is,
      lookupA (g j) (is.map (fun i => (g i, f i))) = some (f j) := by
  intro is
  induction is with
  | nil => intro _ j hj; simp at hj
  | cons i rest ih =>
    intro hnd j hj
    simp only [List.map_cons, List.nodup_cons] at hnd
    simp only [List.map_cons, lookupA]
    rcases List.mem_cons.mp hj with hj | hj
    · subst hj; simp
    · by_cases hgi : g i = g j
      · exact absurd (hgi ▸ List.mem_map_of_mem g hj) hnd.1
      · simp only [hgi, if_false]
        exact ih hnd.2 j hj

theorem lookupA_map_range_fresh {κ ν : Type} [DecidableEq κ] (g : Nat → κ)
    (f : Nat → ν) (KK : Nat) (hnd : ((List.range KK).map g).Nodup)
    (K : Nat) (hK : K < KK) :
    lookupA (g K) ((List.range K).map (fun i => (g i, f i))) = none := by
  rw [lookupA_eq_none_iff]
  intro p hp
  simp only [List.mem_map, List.mem_range] at hp
  obtain ⟨i, hi, hpe⟩ := hp
  rw [← hpe]
  intro hgi
  have := nodup_map_range_inj g KK hnd i K (by omega) hK hgi
  omega

/-- The window at index `j`: the context key the flat-map backend creates. -/
theorem window_cons (S : List α) (j k : Nat) (hj : j < S.length) (hk : 1 ≤ k) :
    (S.drop j).take k = S[j] :: ((S.drop (j + 1)).take (k - 1)) := by
  match k, hk with
  | kk + 1, _ =>
    rw [List.drop_eq_getElem_cons hj, List.take_succ_cons]
    simp

theorem window_shift (S : List α) (j m : Nat) (h2 : 2 ≤ m)
    (hj : j + m ≤ S.length) :
    ((S.drop (j + 1)).take (m - 2)) ++ [S[j + m - 1]]
      = (S.drop (j + 1)).take (m - 1) := by
  have hm1 : m - 1 = (m - 2) + 1 := by omega
  rw [hm1, List.take_succ]
  congr 1
  rw [List.getElem?_drop]
  have hidx : j + 1 + (m - 2) = j + m - 1 := by omega
  rw [hidx]
  rw [List.getElem?_eq_getElem (by omega)]
  rfl

theorem window_elem (S : List α) (j m : Nat) (h2 : 2 ≤ m)
    (hj : j + m ≤ S.length) :
    ((S.drop j).take m)[m - 1]? = some S[j + m - 1] := by
  rw [List.getElem?_take]
  rw [if_pos (by omega)]
  rw [List.getElem?_drop]
  rw [List.getElem?_eq_getElem (by omega)]
  have hje : j + (m - 1) = j + m - 1 := by omega
  simp [hje]

theorem window_elem_last (S : List α) (j m : Nat)
    (hj : S.length ≤ j + m - 1) :
    ((S.drop j).take m)[m - 1]? = none := by
  apply List.getElem?_eq_none
  simp only [List.length_take, List.length_drop]
  omega

end C2Lemmas

section C2Build

variable {α : Type} [DecidableEq α]

/-- `_UpdateTuple` on a non-empty tuple whose key is not yet stored appends a
fresh leaf. -/
theorem updateTuple_fresh (mc : TupleMap.MarkovChain α) (t : List α)
    (lb : Option String) (hne : t ≠ [])
    (hfresh : lookupA (t.take (mc.max - 1)) mc.tupleMap = none) :
    mc.UpdateTuple t lb
      = { mc with
          count := mc.count + 1
          tupleMap := mc.tupleMap
            ++ [(t.take (mc.max - 1), TupleMap.mkMCLeaf t[mc.max - 1]? lb)] } := by
  unfold TupleMap.MarkovChain.UpdateTuple
  rw [if_neg (by simpa [List.isEmpty_iff] using hne)]
  simp only [hfresh]

/-- State of the window fold after `K` steps, when all windows are distinct:
the map holds one fresh leaf per window, in order. -/
theorem buildFold_state (S : List α) (m : Nat) (h2 : 2 ≤ m)
    (hmn : m ≤ S.length) (hw : (windowsL (m - 1) S).Nodup) :
    ∀ K, K ≤ S.length + 2 - m →
      (List.range K).foldl
          (fun mc i => mc.UpdateTuple ((S.drop i).take m) none)
          (TupleMap.mkChain m)
        = { max := m, count := K,
            tupleMap := (List.range K).map (fun i =>
              ((S.drop i).take (m - 1),
               TupleMap.mkMCLeaf ((S.drop i).take m)[m - 1]? none)) } := by
  have hwnd : ((List.range (S.length + 2 - m)).map
      (fun i => (S.drop i).take (m - 1))).Nodup := by
    have harith : S.length + 1 - (m - 1) = S.length + 2 - m := by omega
    unfold windowsL at hw
    rw [harith] at hw
    exact hw
  intro K
  induction K with
  | zero => intro _; rfl
  | succ K ih =>
    intro hK
    rw [List.range_succ, List.foldl_append, ih (by omega)]
    simp only [List.foldl_cons, List.foldl_nil]
    have hne : (S.drop K).take m ≠ [] := by
      intro h0
      have hlen := congrArg List.length h0
      simp only [List.length_take, List.length_drop, List.length_nil] at hlen
      omega
    have hkeyeq : ∀ mx : Nat, mx = m →
        ((S.drop K).take m).take (mx - 1) = (S.drop K).take (m - 1) := by
      intro mx hmx
      subst hmx
      rw [List.take_take]
      congr 1
      omega
    rw [updateTuple_fresh _ _ _ hne ?fresh]
    case fresh =>
      show lookupA (((S.drop K).take m).take (m - 1))
          ((List.range K).map (fun i =>
            ((S.drop i).take (m - 1),
             TupleMap.mkMCLeaf ((S.drop i).take m)[m - 1]? none))) = none
      rw [hkeyeq m rfl]
      exact lookupA_map_range_fresh _ _ (S.length + 2 - m) hwnd K (by omega)
    simp only [List.range_succ, List.map_append, List.map_cons, List.map_nil]
    rw [hkeyeq m rfl]

end C2Build

section C2Run

variable {α : Type} [DecidableEq α]

theorem updateTuple_max (mc : TupleMap.MarkovChain α) (t : List α)
    (lb : Option String) : (mc.UpdateTuple t lb).max = mc.max := by
  unfold TupleMap.MarkovChain.UpdateTuple
  split <;> rfl

/-- `Update` on a single sequence is the window fold over all `max`-windows,
the trailing short window included: the final terminator tuple
`seq[-(max-1):]` is the window at index `len + 1 - max` and `_UpdateTuple`
treats it identically. -/
theorem update_eq_fold (S : List α) (m : Nat) (h2 : 2 ≤ m)
    (hmn : m ≤ S.length) :
    (TupleMap.mkChain m : TupleMap.MarkovChain α).Update S none
      = (List.range (S.length + 2 - m)).foldl
          (fun mc i => mc.UpdateTuple ((S.drop i).take m) none)
          (TupleMap.mkChain m) := by
  unfold TupleMap.MarkovChain.Update
  have harith : S.length + 2 - m = (S.length + 1 - m) + 1 := by omega
  rw [harith, List.range_succ, List.foldl_append]
  simp only [List.foldl_cons, List.foldl_nil, TupleMap.mkChain]
  have hmax : ∀ (xs : List Nat),
      (xs.foldl (fun mc i =>
          TupleMap.MarkovChain.UpdateTuple mc ((S.drop i).take m) none)
        ({ max := m, count := 0, tupleMap := [] } : TupleMap.MarkovChain α)).max
        = m :=
    fun xs => PrefixSql.foldl_preserve _ (fun mc : TupleMap.MarkovChain α => mc.max)
      (fun s b => updateTuple_max s ((S.drop b).take m) none) xs _
  congr 1
  rw [hmax]
  unfold TupleMap.lastSlice
  rw [if_neg (by omega)]
  have hlen2 : (S.drop (S.length + 1 - m)).length ≤ m := by
    simp only [List.length_drop]
    omega
  rw [List.take_of_length_le hlen2]
  congr 1
  omega

theorem build_single (S : List α) (m : Nat) (h2 : 2 ≤ m) (hmn : m ≤ S.length)
    (hw : (windowsL (m - 1) S).Nodup) :
    (TupleMap.mkChain m : TupleMap.MarkovChain α).Update S none
      = { max := m, count := S.length + 2 - m,
          tupleMap := (List.range (S.length + 2 - m)).map (fun i =>
            ((S.drop i).take (m - 1),
             TupleMap.mkMCLeaf ((S.drop i).take m)[m - 1]? none)) } := by
  rw [update_eq_fold S m h2 hmn]
  exact buildFold_state S m h2 hmn hw _ (le_refl _)

end C2Run

section C2Gen

variable {α : Type} [DecidableEq α]

/-- Running the generator loop of `GetRandomSequence` on the single-sequence
chain from window `j` onward reproduces the remainder of the sequence: every
leaf on the path holds exactly one continuation of weight one (so the 0 draw
is the only one in range and selects it), and the final window's leaf holds
only the terminator. -/
theorem genLoop_run (S : List α) (m : Nat) (tr : α → Bool) (h2 : 2 ≤ m)
    (hmn : m ≤ S.length) (hw : (windowsL (m - 1) S).Nodup)
    (htr : ∀ x ∈ S, tr x = true) :
    ∀ (fuel j i : Nat), j ≤ S.length + 1 - m →
      S.length + 2 - m - j < fuel →
      TupleMap.genLoop tr
          { max := m, count := S.length + 2 - m,
            tupleMap := (List.range (S.length + 2 - m)).map (fun i2 =>
              ((S.drop i2).take (m - 1),
               TupleMap.mkMCLeaf ((S.drop i2).take m)[m - 1]? none)) }
          fuel ((S.drop j).take (m - 1)) (fun _ => 0) i
        = some (S.drop j) := by
  have hwnd : ((List.range (S.length + 2 - m)).map
      (fun i2 => (S.drop i2).take (m - 1))).Nodup := by
    have harith : S.length + 1 - (m - 1) = S.length + 2 - m := by omega
    unfold windowsL at hw
    rw [harith] at hw
    exact hw
  intro fuel
  induction fuel with
  | zero => intro j i hj hf; omega
  | succ fuel ih =>
    intro j i hj hf
    have hjn : j < S.length := by omega
    have hlk : lookupA ((S.drop j).take (m - 1))
        ((List.range (S.length + 2 - m)).map (fun i2 =>
          ((S.drop i2).take (m - 1),
           TupleMap.mkMCLeaf ((S.drop i2).take m)[m - 1]? none)))
        = some (TupleMap.mkMCLeaf ((S.drop j).take m)[m - 1]? none) :=
      lookupA_map_of_nodup _ _ _ hwnd j (List.mem_range.mpr (by omega))
    have hcons : (S.drop j).take (m - 1)
        = S[j] :: ((S.drop (j + 1)).take (m - 2)) := by
      have harith : m - 1 - 1 = m - 2 := by omega
      rw [window_cons S j (m - 1) hjn (by omega), harith]
    have hlk2 : lookupA (S[j] :: ((S.drop (j + 1)).take (m - 2)))
        ((List.range (S.length + 2 - m)).map (fun i2 =>
          ((S.drop i2).take (m - 1),
           TupleMap.mkMCLeaf ((S.drop i2).take m)[m - 1]? none)))
        = some (TupleMap.mkMCLeaf ((S.drop j).take m)[m - 1]? none) := by
      rw [← hcons]
      exact hlk
    simp only [TupleMap.genLoop]
    rw [if_pos (by simp only [List.length_take, List.length_drop]; omega)]
    rw [hcons]
    simp only [hlk2]
    by_cases hlast : j = S.length + 1 - m
    · have helem : ((S.drop j).take m)[m - 1]? = none :=
        window_elem_last S j m (by omega)
      rw [helem]
      cases fuel with
      | zero => omega
      | succ f =>
        simp only [TupleMap.mkMCLeaf, TupleMap.MCLeaf.GetRandomElement,
          weightedScan, Option.map_none', TupleMap.genLoop]
        rw [if_neg (by simp only [List.length_take, List.length_drop]; omega)]
        have hrest : (S.drop (j + 1)).take (m - 2) = S.drop (j + 1) :=
          List.take_of_length_le (by simp only [List.length_drop]; omega)
        rw [hrest]
        simp only [Option.map_some']
        rw [← List.drop_eq_getElem_cons hjn]
    · have hjm : j + m ≤ S.length := by omega
      have helem := window_elem S j m h2 hjm
      rw [helem]
      have hge : ∀ e : α,
          TupleMap.MCLeaf.GetRandomElement (TupleMap.mkMCLeaf (some e) none) 0
            = some e := by
        intro e
        simp [TupleMap.mkMCLeaf, TupleMap.MCLeaf.GetRandomElement, weightedScan]
      rw [hge]
      have htre : tr S[j + m - 1] = true :=
        htr _ (List.getElem_mem _)
      simp only [htre, if_true]
      rw [window_shift S j m h2 hjm]
      rw [ih (j + 1) (i + 1) (by omega) (by omega)]
      rw [Option.map_some']
      rw [← List.drop_eq_getElem_cons hjn]

end C2Gen

section C2Trie

variable {α : Type} [DecidableEq α]

theorem lookupA_setA_self {κ ν : Type} [DecidableEq κ] (k : κ) (v : ν) :
    ∀ l : List (κ × ν), lookupA k (setA k v l) = some v := by
  intro l
  induction l with
  | nil => simp [setA, lookupA]
  | cons p r ih =>
    by_cases hp : p.1 = k
    · simp [setA, hp, lookupA]
    · simp [setA, hp, lookupA, ih]

theorem lookupA_setA_ne {κ ν : Type} [DecidableEq κ] {k k2 : κ} (v : ν)
    (hne : k2 ≠ k) : ∀ l : List (κ × ν), lookupA k2 (setA k v l) = lookupA k2 l := by
  have hk : ¬ k = k2 := fun h => hne h.symm
  intro l
  induction l with
  | nil => simp [setA, lookupA, hk]
  | cons p r ih =>
    by_cases hp : p.1 = k
    · have h1 : setA k v (p :: r) = (k, v) :: r := by simp [setA, hp]
      rw [h1]
      simp only [lookupA]
      rw [if_neg hk, if_neg (by rw [hp]; exact hk)]
    · have h1 : setA k v (p :: r) = p :: setA k v r := by simp [setA, hp]
      rw [h1]
      simp only [lookupA, ih]

theorem shapedT_blank (k : Nat) :
    Tree.ShapedT k (Tree.blankT k : Tree.MTree α) = true := by
  cases k <;> simp [Tree.blankT, Tree.ShapedT]

theorem shapedT_empty (m : Nat) :
    Tree.ShapedT m (Tree.emptyNode : Tree.MTree α) = true := by
  cases m <;> simp [Tree.emptyNode, Tree.ShapedT]

/-- `_UpdateTuple` preserves the shape invariant: `_MCLeaf` children exactly
under `_max = 1` nodes. -/
theorem shapedT_updateTupleT (lb : Option String) :
    ∀ (ts : List α) (m : Nat) (excl : Int) (t : Tree.MTree α),
      Tree.ShapedT m t = true →
      Tree.ShapedT m (Tree.updateTupleT lb ts m excl t) = true := by
  intro ts
  induction ts with
  | nil =>
    intro m excl t hs
    match t with
    | .leaf c ls tm =>
      cases m with
      | zero => rfl
      | succ k => simp [Tree.ShapedT] at hs
    | .node c ls tm ch =>
      cases m with
      | zero => exact hs
      | succ k => exact hs
  | cons x xs ih =>
    intro m excl t hs
    match t with
    | .leaf c ls tm =>
      cases m with
      | zero => rfl
      | succ k => simp [Tree.ShapedT] at hs
    | .node c ls tm ch =>
      cases m with
      | zero => exact hs
      | succ k =>
        simp only [Tree.updateTupleT]
        rw [if_neg (by omega)]
        simp only [Tree.ShapedT, List.all_eq_true] at hs ⊢
        intro p hp
        rcases mem_setA hp with hp | hp
        · subst hp
          apply ih
          cases hlk : lookupA x ch with
          | none =>
            simp only [hlk, Option.getD_none]
            by_cases hk0 : k = 0
            · subst hk0
              rfl
            · rw [if_neg (by omega)]
              match k, hk0 with
              | k2 + 1, _ => simp [Tree.ShapedT]
          | some w =>
            simp only [hlk, Option.getD_some]
            exact hs _ (lookupA_mem hlk)
        · exact hs _ hp

/-- An update along a tuple the path does not lead into leaves the subtree at
that path untouched. -/
theorem subtreeAt_update_other (lb : Option String) :
    ∀ (p ts : List α) (m : Nat) (excl : Int) (t : Tree.MTree α),
      ¬(p <+: ts) →
      Tree.subtreeAt (Tree.updateTupleT lb ts m excl t) p = Tree.subtreeAt t p := by
  intro p
  induction p with
  | nil => intro ts m excl t hp; exact absurd List.nil_prefix hp
  | cons x p2 ih =>
    intro ts m excl t hp
    match t with
    | .leaf c ls tm =>
      cases ts with
      | nil => simp [Tree.updateTupleT, Tree.subtreeAt]
      | cons y ts2 => simp [Tree.updateTupleT, Tree.subtreeAt]
    | .node c ls tm ch =>
      cases ts with
      | nil => simp [Tree.updateTupleT, Tree.subtreeAt]
      | cons y ts2 =>
        by_cases hm : m = 0
        · subst hm
          simp [Tree.updateTupleT, Tree.subtreeAt]
        · simp only [Tree.updateTupleT]
          rw [if_neg hm]
          simp only [Tree.subtreeAt]
          by_cases hxy : x = y
          · subst hxy
            have hp2 : ¬(p2 <+: ts2) := fun h => hp (List.cons_prefix_cons.mpr ⟨rfl, h⟩)
            simp only [lookupA_setA_self]
            cases hlk : lookupA x ch with
            | some w =>
              simp only [hlk, Option.getD_some]
              exact ih ts2 (m - 1) (excl - 1) w hp2
            | none =>
              simp only [hlk, Option.getD_none]
              rw [ih ts2 (m - 1) (excl - 1) _ hp2]
              cases p2 with
              | nil => exact absurd List.nil_prefix hp2
              | cons z p3 =>
                by_cases hm1 : m = 1 <;> simp [hm1, Tree.subtreeAt, lookupA]
          · rw [lookupA_setA_ne _ hxy]

/-- An update along a tuple extending a path absent from a shaped tree
creates exactly the fresh-subtree update at that path. -/
theorem subtreeAt_update_fresh (lb : Option String) :
    ∀ (p ts : List α) (m : Nat) (excl : Int) (t : Tree.MTree α),
      Tree.ShapedT m t = true → p <+: ts → p.length ≤ m →
      Tree.subtreeAt t p = none →
      Tree.subtreeAt (Tree.updateTupleT lb ts m excl t) p
        = some (Tree.updateTupleT lb (ts.drop p.length) (m - p.length)
            (excl - (p.length : Int)) (Tree.blankT (m - p.length))) := by
  intro p
  induction p with
  | nil => intro ts m excl t hs hpre hlen h0; simp [Tree.subtreeAt] at h0
  | cons x p2 ih =>
    intro ts m excl t hs hpre hlen h0
    simp only [List.length_cons] at hlen ⊢
    cases m with
    | zero => exact absurd hlen (by omega)
    | succ k =>
      match t with
      | .leaf c ls tm => simp [Tree.ShapedT] at hs
      | .node c ls tm ch =>
        cases ts with
        | nil => exact absurd hpre (by simp)
        | cons y ts2 =>
          obtain ⟨hxy, hpre2⟩ := List.cons_prefix_cons.mp hpre
          subst hxy
          simp only [Tree.updateTupleT]
          rw [if_neg (by omega)]
          simp only [Tree.subtreeAt] at h0 ⊢
          simp only [lookupA_setA_self]
          have hblank : (if k + 1 = 1 then Tree.MTree.leaf 0 [] 0
              else Tree.MTree.node 0 [] 0 []) = (Tree.blankT k : Tree.MTree α) := by
            by_cases hk0 : k = 0
            · subst hk0; simp [Tree.blankT]
            · rw [if_neg (by omega), Tree.blankT, if_neg hk0]
          have harith : excl - 1 - (p2.length : Int)
              = excl - ((p2.length + 1 : Nat) : Int) := by
            push_cast
            ring
          have harith2 : k + 1 - (p2.length + 1) = k - p2.length := by omega
          rw [List.drop_succ_cons, harith2, Nat.add_sub_cancel]
          cases hlk : lookupA x ch with
          | some w =>
            simp only [hlk] at h0
            simp only [hlk, Option.getD_some]
            have hs2 : Tree.ShapedT k w = true := by
              simp only [Tree.ShapedT, List.all_eq_true] at hs
              exact hs _ (lookupA_mem hlk)
            rw [ih ts2 k (excl - 1) w hs2 hpre2 (by omega) h0, harith]
          | none =>
            simp only [hlk, Option.getD_none]
            rw [hblank]
            cases p2 with
            | nil => simp [Tree.subtreeAt]
            | cons z p3 =>
              simp only [List.length_cons] at hlen
              have hk1 : 1 ≤ k := by omega
              have h02 : Tree.subtreeAt (Tree.blankT k : Tree.MTree α) (z :: p3)
                  = none := by
                match k, hk1 with
                | k2 + 1, _ => simp [Tree.blankT, Tree.subtreeAt, lookupA]
              rw [ih ts2 k (excl - 1) _ (shapedT_blank k) hpre2
                (by simp only [List.length_cons]; omega) h02, harith]

/-- Updates by tuples none of which the path leads into leave the subtree
unchanged (fold form over window indices). -/
theorem subtreeAt_fold_other (lb : Option String) (m : Nat) (e0 : Int)
    (w : Nat → List α) (p : List α) :
    ∀ (is : List Nat) (t0 : Tree.MTree α),
      (∀ j ∈ is, ¬(p <+: w j)) →
      Tree.subtreeAt
          (is.foldl (fun t j => Tree.updateTupleT lb (w j) m e0 t) t0) p
        = Tree.subtreeAt t0 p := by
  intro is
  induction is with
  | nil => intro t0 _; rfl
  | cons j rest ih =>
    intro t0 h
    rw [List.foldl_cons]
    rw [ih _ (fun u hu => h u (List.mem_cons_of_mem _ hu))]
    exact subtreeAt_update_other lb p (w j) m e0 t0 (h j (List.mem_cons_self _ _))

theorem shapedT_fold (lb : Option String) (m : Nat) (e0 : Int) (w : Nat → List α)
    (is : List Nat) (t0 : Tree.MTree α) (hs0 : Tree.ShapedT m t0 = true) :
    Tree.ShapedT m
      (is.foldl (fun t j => Tree.updateTupleT lb (w j) m e0 t) t0) = true :=
  foldl_inv (fun t => Tree.ShapedT m t = true)
    (fun t j => Tree.updateTupleT lb (w j) m e0 t)
    (fun s b hs => shapedT_updateTupleT lb (w b) m e0 s hs) is t0 hs0

/-- When exactly one window in the fold extends the path, the subtree at the
path is the fresh-tree update by that window's remainder. -/
theorem subtreeAt_fold_single (lb : Option String) (m : Nat) (e0 : Int)
    (w : Nat → List α) (p : List α) (A B : List Nat) (i : Nat)
    (t0 : Tree.MTree α)
    (hA : ∀ j ∈ A, ¬(p <+: w j)) (hB : ∀ j ∈ B, ¬(p <+: w j))
    (hts : p <+: w i) (hlen : p.length ≤ m) (hs0 : Tree.ShapedT m t0 = true)
    (h0 : Tree.subtreeAt t0 p = none) :
    Tree.subtreeAt
        ((A ++ i :: B).foldl (fun t j => Tree.updateTupleT lb (w j) m e0 t) t0) p
      = some (Tree.updateTupleT lb ((w i).drop p.length) (m - p.length)
          (e0 - (p.length : Int)) (Tree.blankT (m - p.length))) := by
  rw [List.foldl_append, List.foldl_cons]
  have hA0 : Tree.subtreeAt
      (A.foldl (fun t j => Tree.updateTupleT lb (w j) m e0 t) t0) p = none := by
    rw [subtreeAt_fold_other lb m e0 w p A t0 hA]
    exact h0
  have hAs : Tree.ShapedT m
      (A.foldl (fun t j => Tree.updateTupleT lb (w j) m e0 t) t0) = true :=
    shapedT_fold lb m e0 w A t0 hs0
  rw [subtreeAt_fold_other lb m e0 w p B _ hB]
  exact subtreeAt_update_fresh lb p (w i) m e0 _ hAs hts hlen hA0

theorem range_split (K i : Nat) (h : i < K) :
    List.range K
      = List.range i ++ i :: ((List.range (K - i - 1)).map (fun k => i + 1 + k)) := by
  conv_lhs => rw [show K = i + (K - i - 1 + 1) by omega]
  rw [List.range_add]
  congr 1
  rw [List.range_succ_eq_map]
  simp only [List.map_cons, List.map_map, Nat.add_zero]
  congr 1
  exact List.map_congr_left (fun a _ => by simp only [Function.comp_apply]; omega)

/-- In the trie built from the single sequence `S` with pairwise distinct
`(max-1)`-windows, the subtree at the `i`-th window path is exactly the
fresh update by that window's continuation (only window `i` passes through
the path, by distinctness). -/
theorem subtree_window (S : List α) (m : Nat) (h2 : 2 ≤ m) (hmn : m ≤ S.length)
    (hw : (windowsL (m - 1) S).Nodup) (i : Nat) (hi : i ≤ S.length + 1 - m) :
    Tree.subtreeAt (Tree.UpdateT m (m - 1) Tree.emptyNode S none)
        ((S.drop i).take (m - 1))
      = some (Tree.updateTupleT none (((S.drop i).take m).drop (m - 1)) 1 0
          (Tree.blankT 1)) := by
  have hwnd : ((List.range (S.length + 2 - m)).map
      (fun i2 => (S.drop i2).take (m - 1))).Nodup := by
    have harith : S.length + 1 - (m - 1) = S.length + 2 - m := by omega
    unfold windowsL at hw
    rw [harith] at hw
    exact hw
  have hlenW : ∀ j, j ≤ S.length + 1 - m →
      ((S.drop j).take (m - 1)).length = m - 1 := by
    intro j hj
    simp only [List.length_take, List.length_drop]
    omega
  have hother : ∀ j, j < S.length + 2 - m → j ≠ i →
      ¬(((S.drop i).take (m - 1)) <+: ((S.drop j).take m)) := by
    intro j hj hji hpre
    have he : (S.drop i).take (m - 1)
        = ((S.drop j).take m).take ((S.drop i).take (m - 1)).length :=
      List.prefix_iff_eq_take.mp hpre
    rw [hlenW i hi, List.take_take, min_eq_left (by omega)] at he
    exact hji (nodup_map_range_inj _ _ hwnd j i (by omega) (by omega) he.symm)
  unfold Tree.UpdateT
  have hK : S.length + 1 - (m - 1) = S.length + 2 - m := by omega
  rw [hK]
  rw [range_split (S.length + 2 - m) i (by omega)]
  rw [subtreeAt_fold_single none m ((m - 1 : Nat) : Int)
      (fun i2 => (S.drop i2).take m) ((S.drop i).take (m - 1))
      (List.range i) ((List.range (S.length + 2 - m - i - 1)).map
        (fun k => i + 1 + k)) i Tree.emptyNode
      ?_ ?_ ?_ ?_ (shapedT_empty m) ?_]
  · rw [hlenW i hi]
    rw [show m - (m - 1) = 1 by omega]
    rw [show ((m - 1 : Nat) : Int) - ((m - 1 : Nat) : Int) = 0 by ring]
  · intro j hj
    exact hother j (by simp at hj; omega) (by simp at hj; omega)
  · intro j hj
    simp only [List.mem_map, List.mem_range] at hj
    obtain ⟨k, hk, hkj⟩ := hj
    exact hother j (by omega) (by omega)
  · have := List.take_prefix (m - 1) ((S.drop i).take m)
    rw [List.take_take, min_eq_left (by omega)] at this
    exact this
  · rw [hlenW i hi]
    omega
  · have hcons : (S.drop i).take (m - 1)
        = S[i] :: ((S.drop (i + 1)).take (m - 1 - 1)) :=
      window_cons S i (m - 1) (by omega) (by omega)
    rw [hcons]
    simp [Tree.emptyNode, Tree.subtreeAt, lookupA]

/-- Walking a stored truthy seed relocates the query to the subtree at the
seed: `getRTaux` consumes one seed token and one depth level per child. -/
theorem getRTaux_walk (tr : α → Bool) (ds : Nat → Nat) :
    ∀ (seed : List α) (d m : Nat) (t u : Tree.MTree α) (i : Nat),
      Tree.isNode t = true → Tree.ShapedT m t = true →
      (∀ x ∈ seed, tr x = true) → seed.length + 1 ≤ d → d ≤ m →
      Tree.subtreeAt t seed = some u →
      Tree.getRTaux tr ds d m t seed i
        = (Tree.getRTaux tr ds (d - seed.length) (m - seed.length) u [] i).map
            (seed ++ ·) := by
  intro seed
  induction seed with
  | nil =>
    intro d m t u i hn hs htr hlen hdm hsub
    simp only [Tree.subtreeAt, Option.some.injEq] at hsub
    subst hsub
    simp only [List.length_nil, Nat.sub_zero]
    cases hres : Tree.getRTaux tr ds d m t [] i <;> simp [hres, Except.map]
  | cons x rest ih =>
    intro d m t u i hn hs htr hlen hdm hsub
    match t with
    | .leaf c ls tm => simp [Tree.subtreeAt] at hsub
    | .node c ls tm ch =>
      simp only [List.length_cons] at hlen ⊢
      cases d with
      | zero => exact absurd hlen (by omega)
      | succ dd =>
        cases m with
        | zero => exact absurd hdm (by omega)
        | succ m2 =>
          simp only [Tree.getRTaux]
          rw [if_neg (by omega)]
          simp only [Tree.subtreeAt] at hsub
          cases hlk : lookupA x ch with
          | none => rw [hlk] at hsub; simp at hsub
          | some child =>
            simp only [hlk] at hsub
            have hche : ch.isEmpty = false := by
              cases ch
              · simp [lookupA] at hlk
              · rfl
            simp only [hche, Bool.false_eq_true, if_false]
            have htrx : tr x = true := htr x (List.mem_cons_self x rest)
            simp only [htrx, if_true, hlk]
            have hdd0 : ¬ dd = 0 := by omega
            simp only [hdd0, if_false]
            have hs2 : Tree.ShapedT m2 child = true := by
              simp only [Tree.ShapedT, List.all_eq_true] at hs
              exact hs _ (lookupA_mem hlk)
            have hn2 : Tree.isNode child = true := by
              have hm1 : 1 ≤ m2 := by omega
              match m2, hm1 with
              | m3 + 1, _ => exact shaped_node hs2
            rw [Nat.add_sub_cancel]
            rw [ih dd m2 child u i hn2 hs2
              (fun y hy => htr y (List.mem_cons_of_mem _ hy)) (by omega) (by omega)
              hsub]
            rw [show dd - rest.length = dd + 1 - (rest.length + 1) by omega]
            rw [show m2 - rest.length = m2 + 1 - (rest.length + 1) by omega]
            cases Tree.getRTaux tr ds (dd + 1 - (rest.length + 1))
                (m2 + 1 - (rest.length + 1)) u [] i <;> simp [Except.map]

/-- The bottom node of a window path holding the unique weight-1
continuation: the 0 draw selects it and `depth <= 1` returns it. -/
theorem getRTaux_bottom (tr : α → Bool) (e : α) (hte : tr e = true) (j : Nat) :
    Tree.getRTaux tr (fun _ => 0) 1 1
        (.node 1 [] 0 [(e, .leaf 1 [] 1)]) [] j = .ok [e] := by
  show Tree.getRTaux tr (fun _ => 0) (0 + 1) 1 _ [] j = .ok [e]
  simp [Tree.getRTaux, weightedScan, Tree.MTree.cnt, hte]

/-- The bottom node of the final short window holds only the terminator:
`len(self) == 0` ends the tuple. -/
theorem getRTaux_bottom_term (tr : α → Bool) (j : Nat) :
    Tree.getRTaux (α := α) tr (fun _ => 0) 1 1 (.node 1 [] 1 []) [] j
      = .ok [] := by
  show Tree.getRTaux (α := α) tr (fun _ => 0) (0 + 1) 1 _ [] j = .ok []
  simp [Tree.getRTaux]

/-- `GetRandomTuple` (depth `None`) on the single-sequence trie maps window
`i` to the full `max`-tuple at `i`: the seed walk is forced down the window
path and the unique weight-1 continuation is selected by the 0 draw. -/
theorem trie_tuple_full (S : List α) (m : Nat) (tr : α → Bool) (h2 : 2 ≤ m)
    (hmn : m ≤ S.length) (hw : (windowsL (m - 1) S).Nodup)
    (htr : ∀ x ∈ S, tr x = true) (i : Nat) (hi : i + m ≤ S.length) :
    Tree.GetRandomTupleT tr m (Tree.UpdateT m (m - 1) Tree.emptyNode S none)
        ((S.drop i).take (m - 1)) none (fun _ => 0)
      = .ok ((S.drop i).take m) := by
  have hsub := subtree_window S m h2 hmn hw i (by omega)
  have hdrop : ((S.drop i).take m).drop (m - 1) = [S[i + m - 1]] := by
    rw [List.drop_take, List.drop_drop]
    rw [show i + (m - 1) = i + m - 1 by omega]
    rw [show m - (m - 1) = 1 by omega]
    rw [List.drop_eq_getElem_cons (by omega), List.take_succ_cons, List.take_zero]
  rw [hdrop] at hsub
  have hbot : Tree.updateTupleT (α := α) none [S[i + m - 1]] 1 0 (Tree.blankT 1)
      = .node 1 [] 0 [(S[i + m - 1], .leaf 1 [] 1)] := rfl
  rw [hbot] at hsub
  have hshape : Tree.ShapedT m (Tree.UpdateT m (m - 1) Tree.emptyNode S none)
      = true := by
    unfold Tree.UpdateT
    exact shapedT_fold none m ((m - 1 : Nat) : Int) (fun i2 => (S.drop i2).take m)
      (List.range (S.length + 1 - (m - 1))) Tree.emptyNode (shapedT_empty m)
  have hnode : Tree.isNode (Tree.UpdateT m (m - 1) Tree.emptyNode S none)
      = true := by
    match m, h2 with
    | m2 + 2, _ => exact shaped_node hshape
  have hss : (S.drop i).take (m - 1) ⊆ S :=
    (List.take_subset _ _).trans (List.drop_subset _ _)
  have hlen2 : ((S.drop i).take (m - 1)).length = m - 1 := by
    simp only [List.length_take, List.length_drop]
    omega
  have hext : (S.drop i).take (m - 1) ++ [S[i + m - 1]] = (S.drop i).take m := by
    conv_rhs => rw [show m = (m - 1) + 1 by omega]
    rw [List.take_succ]
    congr 1
    rw [List.getElem?_drop]
    rw [show i + (m - 1) = i + m - 1 by omega]
    rw [List.getElem?_eq_getElem (by omega)]
    rfl
  unfold Tree.GetRandomTupleT
  rw [getRTaux_walk tr (fun _ => 0) ((S.drop i).take (m - 1)) m m _ _ 0 hnode
    hshape (fun x hx => htr x (hss hx)) (by rw [hlen2]; omega) (le_refl m) hsub]
  rw [hlen2]
  rw [show m - (m - 1) = 1 by omega]
  rw [getRTaux_bottom tr _ (htr _ (List.getElem_mem _)) 0]
  simp only [Except.map]
  rw [hext]

/-- `GetRandomTuple` (depth `None`) on the final, `max-1`-length window: its
bottom node has no children, so the walk returns the window itself. -/
theorem trie_tuple_term (S : List α) (m : Nat) (tr : α → Bool) (h2 : 2 ≤ m)
    (hmn : m ≤ S.length) (hw : (windowsL (m - 1) S).Nodup)
    (htr : ∀ x ∈ S, tr x = true) :
    Tree.GetRandomTupleT tr m (Tree.UpdateT m (m - 1) Tree.emptyNode S none)
        ((S.drop (S.length + 1 - m)).take (m - 1)) none (fun _ => 0)
      = .ok ((S.drop (S.length + 1 - m)).take (m - 1)) := by
  have hsub := subtree_window S m h2 hmn hw (S.length + 1 - m) (le_refl _)
  have hdrop : ((S.drop (S.length + 1 - m)).take m).drop (m - 1) = [] := by
    apply List.drop_eq_nil_of_le
    simp only [List.length_take, List.length_drop]
    omega
  rw [hdrop] at hsub
  have hbot : Tree.updateTupleT (α := α) none [] 1 0 (Tree.blankT 1)
      = .node 1 [] 1 [] := rfl
  rw [hbot] at hsub
  have hshape : Tree.ShapedT m (Tree.UpdateT m (m - 1) Tree.emptyNode S none)
      = true := by
    unfold Tree.UpdateT
    exact shapedT_fold none m ((m - 1 : Nat) : Int) (fun i2 => (S.drop i2).take m)
      (List.range (S.length + 1 - (m - 1))) Tree.emptyNode (shapedT_empty m)
  have hnode : Tree.isNode (Tree.UpdateT m (m - 1) Tree.emptyNode S none)
      = true := by
    match m, h2 with
    | m2 + 2, _ => exact shaped_node hshape
  have hss : (S.drop (S.length + 1 - m)).take (m - 1) ⊆ S :=
    (List.take_subset _ _).trans (List.drop_subset _ _)
  have hlen2 : ((S.drop (S.length + 1 - m)).take (m - 1)).length = m - 1 := by
    simp only [List.length_take, List.length_drop]
    omega
  unfold Tree.GetRandomTupleT
  rw [getRTaux_walk tr (fun _ => 0) ((S.drop (S.length + 1 - m)).take (m - 1))
    m m _ _ 0 hnode hshape (fun x hx => htr x (hss hx)) (by rw [hlen2]; omega)
    (le_refl m) hsub]
  rw [hlen2]
  rw [show m - (m - 1) = 1 by omega]
  rw [getRTaux_bottom_term tr 0]
  simp only [Except.map, List.append_nil]

/-- Running the loop of `tree.py`'s `GetRandomSequence` on the
single-sequence trie from window `j` onward reproduces the remainder of the
sequence: each requery is forced, and the final short window's bottom node
holds only the terminator, ending the loop. -/
theorem genLoopT_run (S : List α) (m : Nat) (tr : α → Bool) (h2 : 2 ≤ m)
    (hmn : m ≤ S.length) (hw : (windowsL (m - 1) S).Nodup)
    (htr : ∀ x ∈ S, tr x = true) :
    ∀ (fuel j : Nat), j ≤ S.length + 1 - m → S.length + 1 - m - j < fuel →
      Tree.genLoopT tr m (Tree.UpdateT m (m - 1) Tree.emptyNode S none) none m
          (fun _ => 0) fuel ((S.drop j).take m)
        = some (S.drop j) := by
  intro fuel
  induction fuel with
  | zero => intro j hj hf; omega
  | succ fuel ih =>
    intro j hj hf
    by_cases hlast : j = S.length + 1 - m
    · subst hlast
      simp only [Tree.genLoopT]
      rw [if_neg (by simp only [List.length_take, List.length_drop]; omega)]
      rw [List.take_of_length_le (by simp only [List.length_drop]; omega)]
    · have hjm : j + m ≤ S.length := by omega
      have hjn : j < S.length := by omega
      simp only [Tree.genLoopT]
      rw [if_pos (by simp only [List.length_take, List.length_drop]; omega)]
      rw [window_cons S j m hjn (by omega)]
      by_cases hnext : j + 1 = S.length + 1 - m
      · have hgt : Tree.GetRandomTupleT tr m
            (Tree.UpdateT m (m - 1) Tree.emptyNode S none)
            ((S.drop (j + 1)).take (m - 1)) none (fun _ => 0)
            = .ok ((S.drop (j + 1)).take (m - 1)) := by
          rw [hnext]
          exact trie_tuple_term S m tr h2 hmn hw htr
        simp only [hgt]
        have hne : ((S.drop (j + 1)).take (m - 1)).isEmpty = false := by
          rw [window_cons S (j + 1) (m - 1) (by omega) (by omega)]
          rfl
        simp only [hne, Bool.false_eq_true, if_false]
        have hcollapse : (S.drop (j + 1)).take (m - 1) = (S.drop (j + 1)).take m := by
          rw [List.take_of_length_le (by simp only [List.length_drop]; omega),
              List.take_of_length_le (by simp only [List.length_drop]; omega)]
        rw [hcollapse]
        rw [ih (j + 1) (by omega) (by omega)]
        simp only [Option.map_some']
        rw [← List.drop_eq_getElem_cons hjn]
      · have hgt := trie_tuple_full S m tr h2 hmn hw htr (j + 1) (by omega)
        simp only [hgt]
        have hne2 : ((S.drop (j + 1)).take m).isEmpty = false := by
          rw [window_cons S (j + 1) m (by omega) (by omega)]
          rfl
        simp only [hne2, Bool.false_eq_true, if_false]
        rw [ih (j + 1) (by omega) (by omega)]
        simp only [Option.map_some']
        rw [← List.drop_eq_getElem_cons hjn]

/-- The full trie round trip: `GetRandomSequence` seeded with the first
`max - 1` tokens of the single training sequence reproduces it exactly. -/
theorem trie_roundtrip (S : List α) (m : Nat) (tr : α → Bool) (h2 : 2 ≤ m)
    (hmn : m ≤ S.length) (hw : (windowsL (m - 1) S).Nodup)
    (htr : ∀ x ∈ S, tr x = true) :
    Tree.GetRandomSequenceT tr m (Tree.UpdateT m (m - 1) Tree.emptyNode S none)
        (S.take (m - 1)) none (fun _ => 0) (S.length + 2)
      = some S := by
  have hcond : ¬(S.take (m - 1) ≠ [] ∧ m ≤ (S.take (m - 1)).length) := by
    rintro ⟨-, hlen⟩
    simp only [List.length_take] at hlen
    omega
  unfold Tree.GetRandomSequenceT
  simp only [Option.getD_none]
  rw [if_neg hcond]
  have htake : S.take (m - 1) = (S.drop 0).take (m - 1) := by rw [List.drop_zero]
  have hgt := trie_tuple_full S m tr h2 hmn hw htr 0 (by omega)
  rw [htake]
  simp only [hgt]
  rw [genLoopT_run S m tr h2 hmn hw htr (S.length + 2) 0 (by omega) (by omega)]
  rw [List.drop_zero]

end C2Trie

/-- C2 counterexample: the claim quantifies over *every* sequence of length
at least `max`, but when a context window repeats the weighted choices are
not forced.  For `S = [1, 1, 1]` with `max = 3`, the single stored context
`(1, 1)` has aggregate count 2 (one continuation of weight 1 plus one
terminator), so the draw value 1 is within range `[0, 2)`; under it
`GetRandomSequence` seeded with `(1, 1)` yields `[1, 1]`, not `S`. -/
theorem C2_roundtrip_counterexample :
    (lookupA [1, 1] mcAAA.tupleMap).map TupleMap.MCLeaf.count = some 2 ∧
    TupleMap.MarkovChain.GetRandomSequence natTruthy mcAAA (some [1, 1])
      oneDraws 10 = some [1, 1] ∧
    ([1, 1] : List Nat) ≠ [1, 1, 1] := by
  exact ⟨rfl, rfl, by decide⟩

/-- C2 amended (both named backends): for every sequence `S` of length at
least `max ≥ 2` whose `(max-1)`-windows are pairwise distinct and whose
tokens are all truthy, the chain built from exactly `S`, seeded with `S`'s
first `max - 1` tokens, reproduces `S` exactly via `GetRandomSequence` — in
the flat-map backend and in the trie backend (built with the default
`min = max - 1`) alike.  Under the distinct-window hypothesis every stored
context holds exactly one continuation of weight 1, so the constant-0 draw
stream is the only valid one and every choice is forced; the truthiness
hypothesis is required because both generators treat a falsy tuple or drawn
token as a terminator. -/
theorem C2_roundtrip_amended (α : Type) [DecidableEq α] (tr : α → Bool)
    (S : List α) (m : Nat) (h2 : 2 ≤ m) (hmn : m ≤ S.length)
    (htr : ∀ x ∈ S, tr x = true) (hw : (windowsL (m - 1) S).Nodup) :
    TupleMap.MarkovChain.GetRandomSequence tr
      ((TupleMap.mkChain m).Update S none) (some (S.take (m - 1)))
      (fun _ => 0) (S.length + 2) = some S ∧
    Tree.GetRandomSequenceT tr m (Tree.UpdateT m (m - 1) Tree.emptyNode S none)
      (S.take (m - 1)) none (fun _ => 0) (S.length + 2) = some S := by
  refine ⟨?_, trie_roundtrip S m tr h2 hmn hw htr⟩
  unfold TupleMap.MarkovChain.GetRandomSequence
  have hkey : ((TupleMap.mkChain m : TupleMap.MarkovChain α).Update S none).GetRandomKey
      (some (S.take (m - 1))) (fun _ => 0) 0 = (.ok (S.take (m - 1)), 0) := by
    unfold TupleMap.MarkovChain.GetRandomKey
    have hcond : S.take (m - 1) ≠ [] ∧
        ((TupleMap.mkChain m : TupleMap.MarkovChain α).Update S none).max - 1
          ≤ (S.take (m - 1)).length := by
      constructor
      · intro h0
        have := congrArg List.length h0
        simp only [List.length_take, List.length_nil] at this
        omega
      · rw [build_single S m h2 hmn hw]
        simp only [List.length_take]
        omega
    show (if S.take (m - 1) ≠ [] ∧
          ((TupleMap.mkChain m : TupleMap.MarkovChain α).Update S none).max - 1
            ≤ (S.take (m - 1)).length
        then ((Except.ok (S.take (m - 1)) : Except PyErr (List α)), 0)
        else TupleMap.MarkovChain.GetRandomKey.step
          ((TupleMap.mkChain m).Update S none) (fun _ => 0) 0
          (((TupleMap.mkChain m).Update S none).cands (some (S.take (m - 1)))))
      = (Except.ok (S.take (m - 1)), 0)
    rw [if_pos hcond]
  rw [hkey]
  rw [build_single S m h2 hmn hw]
  have htake : S.take (m - 1) = (S.drop 0).take (m - 1) := by
    rw [List.drop_zero]
  rw [htake]
  have hrun := genLoop_run S m tr h2 hmn hw htr (S.length + 2) 0 0 (by omega)
    (by omega)
  simp only [hrun]
  rw [List.drop_zero]

/-- C2 witness: the amended round trip at `S = [1, 2, 3]`, `max = 3` — the
two windows `(1, 2)` and `(2, 3)` are distinct, all tokens truthy, and both
backends generate exactly `[1, 2, 3]`. -/
theorem C2_roundtrip_witness :
    TupleMap.MarkovChain.GetRandomSequence natTruthy
      ((TupleMap.mkChain 3).Update [1, 2, 3] none) (some ([1, 2, 3].take 2))
      (fun _ => 0) ([1, 2, 3].length + 2) = some [1, 2, 3] ∧
    Tree.GetRandomSequenceT natTruthy 3 (Tree.UpdateT 3 2 Tree.emptyNode [1, 2, 3] none)
      ([1, 2, 3].take 2) none (fun _ => 0) ([1, 2, 3].length + 2) = some [1, 2, 3] :=
  C2_roundtrip_amended Nat natTruthy [1, 2, 3] 3 (by decide) (by decide)
    (by decide) (by decide)
